import Mathlib

/-!
Verification development for the `stringly` localization pipeline.

The Rust sources are embedded shallowly: strings are `List Char` (`Str`),
the ordered keyed collections (`BTreeMap` / the repository's `BTreeKeyedSet`
wrapper, whose definition is not under `src/`) are sorted association lists,
and every operation of the content model, the AST bridge, the canonical
serializer and the placeholder guard is a computable Lean function translated
from the corresponding Rust function.  External collaborators (the Fluent
grammar parser, the HTTP translation call) are passed in as oracle parameters,
mirroring the `Result`-typed interfaces the core consumes.
-/

namespace Stringly

/-- Characters of a Rust `String`, in order.  Rust's `Ord` for `String` is
bytewise lexicographic on UTF-8, which for the ASCII identifiers and locale
tags used throughout the repository coincides with charwise lexicographic
order on this representation. -/
abbrev Str := List Char

/-- Charwise lexicographic order on strings (Rust `str` `Ord`). -/
def strLt : Str → Str → Bool
  | [], [] => false
  | [], _ :: _ => true
  | _ :: _, [] => false
  | a :: as, b :: bs => if a < b then true else if a = b then strLt as bs else false

/-- An ordered map keyed by strings, as a strictly sorted association list.

Modelled from the spec: the repository's `BTreeKeyedSet` wrapper and the
`std::collections::BTreeMap` it wraps are not under `src/`; the spec describes
them as "an ordered set of … keyed by … (keys unique, iteration in ascending
key order)" where insertion replaces the entry with an equal key. -/
abbrev KeyedList (α : Type) := List (Str × α)

/-- `BTreeMap::insert` / `BTreeKeyedSet::insert`: insert preserving ascending
key order, replacing an existing entry with the same key. -/
def insertKeyed (k : Str) (v : α) : KeyedList α → KeyedList α
  | [] => [(k, v)]
  | (k', v') :: rest =>
    if strLt k k' then (k, v) :: (k', v') :: rest
    else if k = k' then (k, v) :: rest
    else (k', v') :: insertKeyed k v rest

/-- `BTreeMap::get`: lookup by key. -/
def lookupKeyed (k : Str) : KeyedList α → Option α
  | [] => none
  | (k', v') :: rest => if k = k' then some v' else lookupKeyed k rest

/-- `BTreeMap::get_mut` followed by a mutation: update the entry at a key,
leaving the map unchanged when the key is absent. -/
def updateKeyed (k : Str) (f : α → α) : KeyedList α → KeyedList α
  | [] => []
  | (k', v') :: rest =>
    if k = k' then (k', f v') :: rest else (k', v') :: updateKeyed k f rest

/-- Keys appear in strictly ascending order (the `BTreeMap` iteration
invariant). -/
def sortedKeys : KeyedList α → Bool
  | [] => true
  | [_] => true
  | (k, _) :: (k', v') :: rest => strLt k k' && sortedKeys ((k', v') :: rest)

/-- `std::convert::Infallible`: the uninhabited error type of the identifier
`TryFrom` implementations in `src/ir.rs`. -/
inductive Infallible : Type

/-- `TUIdentifier` (`src/ir.rs`): a translation-unit identifier wrapping a
string.  The source carries a `TODO` to validate it and performs no check. -/
structure TUIdentifier where
  val : Str
deriving DecidableEq, Repr

/-- `impl TryFrom<String> for TUIdentifier` (`src/ir.rs` lines 192–198):
always succeeds, with the uninhabited `Infallible` as error type. -/
def TUIdentifier.tryFrom (s : Str) : Except Infallible TUIdentifier :=
  Except.ok ⟨s⟩

/-- `CIdentifier` (`src/ir.rs`): a category identifier wrapping a string.
The source carries a `TODO` to validate it and performs no check. -/
structure CIdentifier where
  val : Str
deriving DecidableEq, Repr

/-- `impl TryFrom<String> for CIdentifier` (`src/ir.rs` lines 279–285):
always succeeds, with the uninhabited `Infallible` as error type. -/
def CIdentifier.tryFrom (s : Str) : Except Infallible CIdentifier :=
  Except.ok ⟨s⟩

/-- `TranslationUnit` (`src/ir.rs`): a unit identifier, its main text, and an
ordered map of attribute identifier → attribute text. -/
structure TranslationUnit where
  key : Str
  main : Str
  attributes : KeyedList Str
deriving DecidableEq, Repr

/-- `TranslationUnitMap` (`src/ir.rs`): a locale tag plus an ordered set of
translation units keyed by unit identifier. -/
structure TranslationUnitMap where
  locale : Str
  translation_units : KeyedList TranslationUnit
deriving DecidableEq, Repr

/-- `TranslationUnitMap::new`. -/
def TranslationUnitMap.new (locale : Str) : TranslationUnitMap :=
  { locale := locale, translation_units := [] }

/-- `Category` (`src/ir.rs`): key, display name, mandatory default locale,
description map, and the ordered set of locale unit maps. -/
structure Category where
  key : Str
  name : Str
  default_locale : Str
  descriptions : KeyedList Str
  translation_units : KeyedList TranslationUnitMap
deriving DecidableEq, Repr

/-- `Project` (`src/ir.rs`): display name, optional default locale, ordered
set of categories. -/
structure Project where
  name : Str
  default_locale : Option Str
  categories : KeyedList Category
deriving DecidableEq, Repr

/-- `Category::base_strings` (`src/ir.rs` lines 64–66) without the final
`unwrap`: the lookup of the declared default locale's unit map.  The source
unwraps this option, so `none` here is exactly the panic branch. -/
def Category.baseStringsOpt (c : Category) : Option TranslationUnitMap :=
  lookupKeyed c.default_locale c.translation_units

/-! ## The Fluent syntax tree (`fluent_syntax::ast`, instantiated at owned
strings, as consumed and produced by the bridge and the serializer). -/

/-- `ast::VariantKey`. -/
inductive VariantKey : Type
  | identifier (name : Str)
  | numberLiteral (value : Str)
deriving DecidableEq, Repr

mutual

/-- `ast::InlineExpression`. -/
inductive InlineExpression : Type
  | stringLiteral (value : Str)
  | numberLiteral (value : Str)
  | variableReference (id : Str)
  | functionReference (id : Str) (arguments : CallArguments)
  | messageReference (id : Str) (attr : Option Str)
  | termReference (id : Str) (attr : Option Str) (arguments : Option CallArguments)
  | placeable (expression : Expression)
deriving Repr

/-- `ast::Expression`. -/
inductive Expression : Type
  | inline (e : InlineExpression)
  | select (selector : InlineExpression) (variants : List Variant)
deriving Repr

/-- `ast::CallArguments`: positional arguments, then named arguments
(`NamedArgument` is its identifier paired with its value). -/
inductive CallArguments : Type
  | mk (positional : List InlineExpression) (named : List (Str × InlineExpression))
deriving Repr

/-- `ast::Variant`. -/
inductive Variant : Type
  | mk (key : VariantKey) (value : List PatternElement) (dflt : Bool)
deriving Repr

/-- `ast::PatternElement`. -/
inductive PatternElement : Type
  | textElement (value : Str)
  | placeable (expression : Expression)
deriving Repr

end

/-- `ast::Pattern`. -/
structure Pattern where
  elements : List PatternElement
deriving Repr

/-- `ast::Comment` (also used for group and resource comments). -/
structure FComment where
  content : List Str
deriving Repr

/-- `ast::Attribute`. -/
structure FAttribute where
  id : Str
  value : Pattern
deriving Repr

/-- `ast::Message`. -/
structure Message where
  id : Str
  value : Option Pattern
  attributes : List FAttribute
  comment : Option FComment
deriving Repr

/-- `ast::Term` (its value pattern is mandatory). -/
structure Term where
  id : Str
  value : Pattern
  attributes : List FAttribute
  comment : Option FComment
deriving Repr

/-- `ast::Entry`. -/
inductive Entry : Type
  | message (msg : Message)
  | term (t : Term)
  | comment (c : FComment)
  | groupComment (c : FComment)
  | resourceComment (c : FComment)
  | junk (content : Str)
deriving Repr

/-- `ast::Resource`. -/
structure Resource where
  body : List Entry
deriving Repr

/-! ## The canonical serializer (`src/flt/serializer.rs`). -/

/-- `matches_fluent_ws` (`src/flt/serializer.rs`). -/
def matchesFluentWs (c : Char) : Bool :=
  c = ' ' || c = '\r' || c = '\n'

/-- `str::trim_matches(matches_fluent_ws)`: strip those characters from both
ends. -/
def trimMatchesFluentWs (s : Str) : Str :=
  ((s.dropWhile matchesFluentWs).reverse.dropWhile matchesFluentWs).reverse

/-- `TextWriter` (`src/flt/serializer.rs`): output buffer plus indentation
level. -/
structure TextWriter where
  buffer : Str
  indentLevel : Nat
deriving DecidableEq, Repr

/-- Does the buffer end with the given character (`str::ends_with`)? -/
def endsWithChar (b : Str) (c : Char) : Bool :=
  b.getLast? = some c

/-- `TextWriter::indent`. -/
def TextWriter.indent (w : TextWriter) : TextWriter :=
  { w with indentLevel := w.indentLevel + 1 }

/-- `TextWriter::dedent`.  The source uses `checked_sub(1).expect(..)`
(the `DedentUnderflow` panic); truncated subtraction is extensionally equal
on every execution because indents and dedents are balanced — see
`serializePattern_indentLevel` and its siblings, which show the level at each
`dedent` call site is positive. -/
def TextWriter.dedent (w : TextWriter) : TextWriter :=
  { w with indentLevel := w.indentLevel - 1 }

/-- `TextWriter::write_indent`: four spaces per indentation level. -/
def TextWriter.writeIndent (w : TextWriter) : TextWriter :=
  { w with buffer := w.buffer ++ List.replicate (4 * w.indentLevel) ' ' }

/-- `TextWriter::newline`: push `\n`, doubling a trailing `\r` first. -/
def TextWriter.newline (w : TextWriter) : TextWriter :=
  if endsWithChar w.buffer '\r' then { w with buffer := w.buffer ++ ['\r', '\n'] }
  else { w with buffer := w.buffer ++ ['\n'] }

/-- `TextWriter::write_literal`: indent first when the buffer ends in a
newline, then append the text. -/
def TextWriter.writeLiteral (w : TextWriter) (item : Str) : TextWriter :=
  let w := if endsWithChar w.buffer '\n' then w.writeIndent else w
  { w with buffer := w.buffer ++ item }

/-- `TextWriter::write_char_into_indent`: indent as `write_literal` would,
then overwrite the last buffered character. -/
def TextWriter.writeCharIntoIndent (w : TextWriter) (ch : Char) : TextWriter :=
  let w := if endsWithChar w.buffer '\n' then w.writeIndent else w
  { w with buffer := w.buffer.dropLast ++ [ch] }

/-- `is_select_expr` (`src/flt/serializer.rs` lines 394–402). -/
def isSelectExpr : Expression → Bool
  | .select _ _ => true
  | .inline (.placeable e) => isSelectExpr e
  | .inline _ => false

/-- `is_multiline` (`src/flt/serializer.rs` lines 379–384). -/
def isMultiline (p : Pattern) : Bool :=
  p.elements.any fun elem =>
    match elem with
    | .textElement value => value.contains '\n'
    | .placeable expression => isSelectExpr expression

/-- `has_leading_text_dot` (`src/flt/serializer.rs` lines 386–392). -/
def hasLeadingTextDot (p : Pattern) : Bool :=
  match p.elements.head? with
  | some (.textElement value) => value.head? = some '.'
  | _ => false

/-- `starts_on_new_line` (`src/flt/serializer.rs` lines 375–377). -/
def startsOnNewLine (p : Pattern) : Bool :=
  !hasLeadingTextDot p && isMultiline p

/-- `Serializer::serialize_variant_key`. -/
def serializeVariantKey (w : TextWriter) : VariantKey → TextWriter
  | .identifier name => w.writeLiteral name
  | .numberLiteral value => w.writeLiteral value

/-- The argument-free part of the `TermReference` arm of
`Serializer::serialize_inline_expression`: `-`, the name, and the optional
`.attribute` suffix. -/
def serializeTermRefBase (w : TextWriter) (id : Str) : Option Str → TextWriter
  | some attr => (((w.writeLiteral ['-']).writeLiteral id).writeLiteral ['.']).writeLiteral attr
  | none => (w.writeLiteral ['-']).writeLiteral id

mutual

/-- `Serializer::serialize_pattern`. -/
def serializePattern (w : TextWriter) : Pattern → TextWriter
  | ⟨elements⟩ =>
    if startsOnNewLine ⟨elements⟩ then
      (serializeElementList (w.newline.indent) elements).dedent
    else
      serializeElementList (w.writeLiteral [' ']) elements
termination_by p => sizeOf p

/-- The element loop of `Serializer::serialize_pattern`. -/
def serializeElementList (w : TextWriter) : List PatternElement → TextWriter
  | [] => w
  | el :: rest => serializeElementList (serializeElement w el) rest
termination_by l => sizeOf l

/-- `Serializer::serialize_element`. -/
def serializeElement (w : TextWriter) : PatternElement → TextWriter
  | .textElement value => w.writeLiteral value
  | .placeable (.inline (.placeable inner)) =>
    ((serializeExpression (w.writeLiteral ('\x7b' :: '\x7b' :: [' '])) inner).writeLiteral
      (' ' :: '\x7d' :: ['\x7d']))
  | .placeable (.select selector variants) =>
    ((serializeSelectExpression (w.writeLiteral ['\x7b', ' ']) selector
      variants).writeLiteral ['\x7d'])
  | .placeable (.inline (.stringLiteral value)) =>
    ((serializeExpression (w.writeLiteral ['\x7b', ' '])
      (.inline (.stringLiteral value))).writeLiteral [' ', '\x7d'])
  | .placeable (.inline (.numberLiteral value)) =>
    ((serializeExpression (w.writeLiteral ['\x7b', ' '])
      (.inline (.numberLiteral value))).writeLiteral [' ', '\x7d'])
  | .placeable (.inline (.variableReference id)) =>
    ((serializeExpression (w.writeLiteral ['\x7b', ' '])
      (.inline (.variableReference id))).writeLiteral [' ', '\x7d'])
  | .placeable (.inline (.functionReference id arguments)) =>
    ((serializeExpression (w.writeLiteral ['\x7b', ' '])
      (.inline (.functionReference id arguments))).writeLiteral [' ', '\x7d'])
  | .placeable (.inline (.messageReference id attr)) =>
    ((serializeExpression (w.writeLiteral ['\x7b', ' '])
      (.inline (.messageReference id attr))).writeLiteral [' ', '\x7d'])
  | .placeable (.inline (.termReference id attr arguments)) =>
    ((serializeExpression (w.writeLiteral ['\x7b', ' '])
      (.inline (.termReference id attr arguments))).writeLiteral [' ', '\x7d'])
termination_by el => sizeOf el

/-- `Serializer::serialize_expression`. -/
def serializeExpression (w : TextWriter) : Expression → TextWriter
  | .inline inl => serializeInlineExpression w inl
  | .select selector variants => serializeSelectExpression w selector variants
termination_by e => sizeOf e

/-- `Serializer::serialize_inline_expression`. -/
def serializeInlineExpression (w : TextWriter) : InlineExpression → TextWriter
  | .stringLiteral value => ((w.writeLiteral ['"']).writeLiteral value).writeLiteral ['"']
  | .numberLiteral value => w.writeLiteral value
  | .variableReference id => (w.writeLiteral ['$']).writeLiteral id
  | .functionReference id arguments =>
    serializeCallArguments (w.writeLiteral id) arguments
  | .messageReference id attr =>
    let w := w.writeLiteral id
    match attr with
    | some attr => (w.writeLiteral ['.']).writeLiteral attr
    | none => w
  | .termReference id attr none => serializeTermRefBase w id attr
  | .termReference id attr (some args) =>
    serializeCallArguments (serializeTermRefBase w id attr) args
  | .placeable expression =>
    ((serializeExpression (w.writeLiteral ['\x7b']) expression).writeLiteral ['\x7d'])
termination_by e => sizeOf e

/-- `Serializer::serialize_select_expression`. -/
def serializeSelectExpression (w : TextWriter) (selector : InlineExpression)
    (variants : List Variant) : TextWriter :=
  let w := (serializeInlineExpression w selector).writeLiteral [' ', '-', '>']
  (serializeVariantList (w.newline.indent) variants).dedent
termination_by sizeOf selector + sizeOf variants
decreasing_by
  · simp_wf
    cases variants <;> simp
  · simp_wf
    cases selector <;> simp

/-- The variant loop of `Serializer::serialize_select_expression`. -/
def serializeVariantList (w : TextWriter) : List Variant → TextWriter
  | [] => w
  | v :: rest => serializeVariantList (serializeVariant w v).newline rest
termination_by l => sizeOf l

/-- `Serializer::serialize_variant`. -/
def serializeVariant (w : TextWriter) : Variant → TextWriter
  | .mk key value dflt =>
    let w := if dflt then w.writeCharIntoIndent '*' else w
    serializePattern
      ((serializeVariantKey (w.writeLiteral ['[']) key).writeLiteral [']'])
      ⟨value⟩
termination_by v => sizeOf v

/-- `Serializer::serialize_call_arguments`. -/
def serializeCallArguments (w : TextWriter) : CallArguments → TextWriter
  | .mk positional named =>
    let w := w.writeLiteral ['(']
    let (w, argumentWritten) := serializePositionalList w false positional
    let (w, _) := serializeNamedList w argumentWritten named
    w.writeLiteral [')']
termination_by a => sizeOf a

/-- The positional-argument loop of `serialize_call_arguments`, threading the
`argument_written` flag. -/
def serializePositionalList (w : TextWriter) (argumentWritten : Bool) :
    List InlineExpression → TextWriter × Bool
  | [] => (w, argumentWritten)
  | p :: rest =>
    let w := if argumentWritten then w.writeLiteral [',', ' '] else w
    serializePositionalList (serializeInlineExpression w p) true rest
termination_by l => sizeOf l

/-- The named-argument loop of `serialize_call_arguments`, threading the
`argument_written` flag. -/
def serializeNamedList (w : TextWriter) (argumentWritten : Bool) :
    List (Str × InlineExpression) → TextWriter × Bool
  | [] => (w, argumentWritten)
  | (name, value) :: rest =>
    let w := if argumentWritten then w.writeLiteral [',', ' '] else w
    let w := (w.writeLiteral name).writeLiteral [':', ' ']
    serializeNamedList (serializeInlineExpression w value) true rest
termination_by l => sizeOf l

end

/-- `Serializer::serialize_attribute`. -/
def serializeAttribute (w : TextWriter) (attr : FAttribute) : TextWriter :=
  serializePattern (((w.writeLiteral ['.']).writeLiteral attr.id).writeLiteral [' ', '=']) attr.value

/-- The attribute loop of `Serializer::serialize_attributes`. -/
def serializeAttributeLoop (w : TextWriter) : List FAttribute → TextWriter
  | [] => w
  | attr :: rest => serializeAttributeLoop (serializeAttribute w.newline attr) rest

/-- `Serializer::serialize_attributes`: nothing when empty, otherwise an
indented, newline-led attribute per entry. -/
def serializeAttributes (w : TextWriter) (attrs : List FAttribute) : TextWriter :=
  match attrs with
  | [] => w
  | _ :: _ => (serializeAttributeLoop w.indent attrs).dedent

/-- One line of `Serializer::serialize_comment`. -/
def serializeCommentLine (w : TextWriter) (pre : Str) (line : Str) : TextWriter :=
  let w := w.writeLiteral pre
  let w :=
    if (trimMatchesFluentWs line).isEmpty then w
    else (w.writeLiteral [' ']).writeLiteral line
  w.newline

/-- `Serializer::serialize_comment`: each content line prefixed and
newline-terminated. -/
def serializeComment (w : TextWriter) (comment : FComment) (pre : Str) : TextWriter :=
  comment.content.foldl (fun w line => serializeCommentLine w pre line) w

/-- `Serializer::serialize_message`. -/
def serializeMessage (w : TextWriter) (msg : Message) : TextWriter :=
  let w :=
    match msg.comment with
    | some comment => serializeComment w comment ['#']
    | none => w
  let w := (w.writeLiteral msg.id).writeLiteral [' ', '=']
  let w :=
    match msg.value with
    | some value => serializePattern w value
    | none => w
  (serializeAttributes w msg.attributes).newline

/-- `Serializer::serialize_term`. -/
def serializeTerm (w : TextWriter) (term : Term) : TextWriter :=
  let w :=
    match term.comment with
    | some comment => serializeComment w comment ['#']
    | none => w
  let w := ((w.writeLiteral ['-']).writeLiteral term.id).writeLiteral [' ', '=']
  let w := serializePattern w term.value
  (serializeAttributes w term.attributes).newline

/-- `Serializer::serialize_junk`. -/
def serializeJunk (w : TextWriter) (junk : Str) : TextWriter :=
  w.writeLiteral junk

/-- `Serializer::serialize_free_comment`: a blank separating line when a
non-junk entry was already written, then the comment and a newline. -/
def serializeFreeComment (w : TextWriter) (wroteNonJunkEntry : Bool)
    (comment : FComment) (pre : Str) : TextWriter :=
  let w := if wroteNonJunkEntry then w.newline else w
  (serializeComment w comment pre).newline

/-- `Options` (`src/flt/serializer.rs`): whether junk is serialized. -/
structure Options where
  withJunk : Bool
deriving DecidableEq, Repr

/-- The entry dispatch of `Serializer::serialize_resource`, also threading
`State::wrote_non_junk_entry`. -/
def serializeEntry (opts : Options) (w : TextWriter) (wroteNonJunkEntry : Bool)
    (entry : Entry) : TextWriter × Bool :=
  let w :=
    match entry with
    | .message msg => serializeMessage w msg
    | .term t => serializeTerm w t
    | .comment c => serializeFreeComment w wroteNonJunkEntry c ['#']
    | .groupComment c => serializeFreeComment w wroteNonJunkEntry c ['#', '#']
    | .resourceComment c => serializeFreeComment w wroteNonJunkEntry c ['#', '#', '#']
    | .junk content => if opts.withJunk then serializeJunk w content else w
  (w, match entry with | .junk _ => false | _ => true)

/-- `Serializer::serialize_resource`: the entry loop. -/
def serializeResourceLoop (opts : Options) (w : TextWriter) (wroteNonJunkEntry : Bool) :
    List Entry → TextWriter
  | [] => w
  | entry :: rest =>
    let (w, flag) := serializeEntry opts w wroteNonJunkEntry entry
    serializeResourceLoop opts w flag rest

/-- `serialize_with_options` (`src/flt/serializer.rs`): fresh writer and
state, then the resource body. -/
def serializeWithOptions (res : Resource) (opts : Options) : Str :=
  (serializeResourceLoop opts ⟨[], 0⟩ false res.body).buffer

/-- `serialize` (`src/flt/serializer.rs` lines 57–59): default options. -/
def serialize (res : Resource) : Str :=
  serializeWithOptions res ⟨false⟩

/-- `serialize_pattern` (`src/flt/serializer.rs` lines 61–65): the
pattern-only entry point used by the bridge's tree→model direction. -/
def serializePatternText (pattern : Pattern) : Str :=
  (serializePattern ⟨[], 0⟩ pattern).buffer

/-- `serialize_term` public entry point (`src/flt/serializer.rs` lines
67–71). -/
def serializeTermText (term : Term) : Str :=
  (serializeTerm ⟨[], 0⟩ term).buffer

/-- The `serializer::serialize_message` entry point invoked by
`to_flt_resource` (`src/flt/mod.rs` line 225): a fresh writer serialized
through `Serializer::serialize_message`, exactly as the `serialize_pattern`
and `serialize_term` wrappers do for their nodes. -/
def serializeMessageText (msg : Message) : Str :=
  (serializeMessage ⟨[], 0⟩ msg).buffer

/-! ## String helpers used by the bridge (`src/flt/mod.rs`). -/

/-- `str::replace(pat, rep)`: replace every non-overlapping occurrence of
`pat`, scanning left to right.  (All call sites pass non-empty patterns; an
empty pattern is returned unchanged.)  The first argument counts characters
still to be skipped because they belong to an already-replaced occurrence,
keeping the recursion structural. -/
def replaceAllAux (pat rep : Str) : Nat → Str → Str
  | _, [] => []
  | k + 1, _ :: rest => replaceAllAux pat rep k rest
  | 0, c :: rest =>
    if pat.isPrefixOf (c :: rest) ∧ pat ≠ [] then
      rep ++ replaceAllAux pat rep (pat.length - 1) rest
    else
      c :: replaceAllAux pat rep 0 rest

/-- `str::replace(pat, rep)`. -/
def replaceAll (pat rep : Str) (s : Str) : Str :=
  replaceAllAux pat rep 0 s

/-- `str::trim`: strip whitespace from both ends. -/
def trimStr (s : Str) : Str :=
  ((s.dropWhile Char.isWhitespace).reverse.dropWhile Char.isWhitespace).reverse

/-- `str::split("\n")`. -/
def splitOnNewline : Str → List Str
  | [] => [[]]
  | c :: rest =>
    let r := splitOnNewline rest
    if c = '\n' then [] :: r
    else
      match r with
      | h :: t => (c :: h) :: t
      | [] => [[c]]

/-- `escape` (`src/flt/mod.rs` lines 266–273): rewrite reserved sequences
into inert string-literal placeables, one full replacement pass each, in
source order. -/
def escape (value : Str) : Str :=
  replaceAll ['\\', '\x7d'] ('\x7b' :: '"' :: '\x7d' :: '"' :: ['\x7d'])
    (replaceAll ['\\', '\x7b'] ('\x7b' :: '"' :: '\x7b' :: '"' :: ['\x7d'])
      (replaceAll ['\\', ')'] ('\x7b' :: '"' :: ')' :: '"' :: ['\x7d'])
        (replaceAll ['\\', '('] ('\x7b' :: '"' :: '(' :: '"' :: ['\x7d'])
          (replaceAll ['*'] ('\x7b' :: '"' :: '*' :: '"' :: ['\x7d']) value))))

/-- `multiline_main` (`src/flt/mod.rs` lines 246–254): escape the trimmed
text, indent continuation lines by four spaces, and append a newline. -/
def multilineMain (value : Str) : Str :=
  List.intercalate ('\n' :: [' ', ' ', ' ', ' ']) (splitOnNewline (escape (trimStr value))) ++ ['\n']

/-- `multiline_attr` (`src/flt/mod.rs` lines 256–264): as `multiline_main`
with eight spaces of continuation indentation. -/
def multilineAttr (value : Str) : Str :=
  List.intercalate ('\n' :: [' ', ' ', ' ', ' ', ' ', ' ', ' ', ' '])
    (splitOnNewline (escape (trimStr value))) ++ ['\n']

/-! ## The AST bridge (`src/flt/mod.rs`). -/

/-- `fluent_syntax::parser::ParserError`, opaque to the bridge (it is only
stored and propagated). -/
abbrev ParserError := Nat

/-- The external grammar parser (`fluent_syntax::parser::parse`), passed as
an oracle: on failure the real parser returns the partially recovered
resource together with a non-empty diagnostic list, modelled here as the
partial resource, the first diagnostic and the remaining diagnostics. -/
abbrev FluentParse := Str → Except (Resource × ParserError × List ParserError) Resource

/-- The message synthesized for one translation unit inside
`TranslationUnitMap::to_flt_resource` (`src/flt/mod.rs` lines 191–223):
escaped main text as the single-element value pattern, escaped attribute
texts, and an optional leading comment from the description map. -/
def synthMessage (descriptions : KeyedList Str) (key : Str) (value : TranslationUnit) :
    Message :=
  { id := key
    value := some ⟨[.textElement (multilineMain value.main)]⟩
    attributes := value.attributes.map fun kv => ⟨kv.1, ⟨[.textElement (multilineAttr kv.2)]⟩⟩
    comment := (lookupKeyed key descriptions).map fun d => ⟨[multilineMain d]⟩ }

/-- The synthesized source document of `to_flt_resource`: the fold over the
unit map appending `serializer::serialize_message` of each synthesized
message. -/
def synthSource (descriptions : KeyedList Str) (tm : TranslationUnitMap) : Str :=
  tm.translation_units.foldl
    (fun input kv => input ++ serializeMessageText (synthMessage descriptions kv.1 kv.2)) []

/-- `TranslationUnitMap::to_flt_resource` (`src/flt/mod.rs` lines 182–243):
synthesize the source document, run the external parser, and on failure keep
only the first diagnostic (`errors.remove(0)`). -/
def toFltResource (tm : TranslationUnitMap) (descriptions : KeyedList Str)
    (parse : FluentParse) : Except ParserError Resource :=
  match parse (synthSource descriptions tm) with
  | .ok r => .ok r
  | .error (_, e, _) => .error e

/-- The diagnostics carried by a bridge result: the error payload as a list. -/
def carriedDiagnostics : Except ParserError Resource → List ParserError
  | .error e => [e]
  | .ok _ => []

/-- One entry of `TranslationUnitMap::from_flt_resource` (`src/flt/mod.rs`
lines 134–176).  The `Message` arm unwraps `x.value`; `none` models that
panic.  Term identifiers gain the `-` prefix (`TUIdentifier::from`). -/
def fromFltEntry (tm : TranslationUnitMap) : Entry → Option TranslationUnitMap
  | .message x =>
    match x.value with
    | none => none
    | some value =>
      let tuId := x.id
      let main := serializePatternText value
      let attributes :=
        x.attributes.foldl (fun m a => insertKeyed a.id (serializePatternText a.value) m) []
      some { tm with
        translation_units :=
          insertKeyed tuId ⟨tuId, main, attributes⟩ tm.translation_units }
  | .term x =>
    let tuId := '-' :: x.id
    let main := serializePatternText x.value
    let attributes :=
      x.attributes.foldl (fun m a => insertKeyed a.id (serializePatternText a.value) m) []
    some { tm with
      translation_units :=
        insertKeyed tuId ⟨tuId, main, attributes⟩ tm.translation_units }
  | _ => some tm

/-- `TranslationUnitMap::from_flt_resource` (`src/flt/mod.rs` lines
128–180). -/
def fromFltResource (default_locale : Str) (value : Resource) : Option TranslationUnitMap :=
  value.body.foldlM fromFltEntry (TranslationUnitMap.new default_locale)

/-! ## `generate` and `load_project_from_path` (`src/flt/mod.rs`). -/

/-- `PathNode` (`src/lib.rs`): an abstract file tree of byte blobs. -/
inductive PathNode : Type
  | file (data : Str)
  | directory (entries : List (Str × PathNode))
deriving Repr

/-- The observable outcome of `generate` (`src/flt/mod.rs` lines 35–77):
either the produced file tree or a direct process termination
(`std::process::exit`). -/
inductive GenerateOutcome : Type
  | ok (files : KeyedList PathNode)
  | processExit (code : Nat)
deriving Repr

/-- The per-category inner loop of `generate` (`src/flt/mod.rs` lines
53–67): serialize each locale's resource into `<locale>.flt`; a
`to_flt_resource` failure reaches `std::process::exit(1)`, modelled as
`none`. -/
def generateLocaleFiles (parse : FluentParse) (descriptions : KeyedList Str) :
    List (Str × TranslationUnitMap) → Option (KeyedList PathNode)
  | [] => some []
  | (_, m) :: rest =>
    match toFltResource m descriptions parse with
    | .error _ => none
    | .ok x =>
      (generateLocaleFiles parse descriptions rest).map
        (insertKeyed (m.locale ++ ('.' :: ['f', 'l', 't'])) (.file (serialize x)))

/-- The category loop of `generate`. -/
def generateCategories (parse : FluentParse) (files : KeyedList PathNode) :
    List (Str × Category) → Option (KeyedList PathNode)
  | [] => some files
  | (k, v) :: rest =>
    match generateLocaleFiles parse v.descriptions v.translation_units with
    | none => none
    | some subfiles => generateCategories parse (insertKeyed k (.directory subfiles) files) rest

/-- `generate` (`src/flt/mod.rs` lines 35–77).  The `stringly.toml` config
file the source additionally inserts is produced by an external TOML
serializer and is not modelled; the claims about `generate` concern its exit
path. -/
def generate (input : Project) (parse : FluentParse) : GenerateOutcome :=
  match generateCategories parse [] input.categories with
  | none => .processExit 1
  | some files => .ok files

/-- `CategoryConfig` (`src/flt/mod.rs`). -/
structure CategoryConfig where
  name : Str
  default_locale : Str
deriving DecidableEq, Repr

/-- `ProjectConfig` (`src/flt/mod.rs`). -/
structure ProjectConfig where
  name : Str
  default_locale : Option Str
  categories : KeyedList CategoryConfig
deriving DecidableEq, Repr

/-- The per-category body of `load_project_from_path` (`src/flt/mod.rs`
lines 89–122): starting from an empty category, insert
`from_flt_resource` of every parsed `.flt` file found in the category's
directory, keyed by its locale.  No check relates the inserted locales to
the declared default locale. -/
def loadCategoryStep (cat : Category) (kv : Str × Resource) : Option Category := do
  let tum ← fromFltResource kv.1 kv.2
  pure { cat with translation_units := insertKeyed tum.locale tum cat.translation_units }

/-- The folded body of `load_project_from_path`'s per-category loop. -/
def loadCategory (category_id : Str) (ccfg : CategoryConfig)
    (fltFiles : List (Str × Resource)) : Option Category :=
  let category : Category :=
    { key := category_id
      descriptions := []
      name := ccfg.name
      default_locale := ccfg.default_locale
      translation_units := [] }
  fltFiles.foldlM loadCategoryStep category

/-- `load_project_from_path` (`src/flt/mod.rs` lines 79–125) with the I/O
boundary abstracted: the parsed `stringly.toml` configuration is given
directly, and `fltFiles` maps each category id to the (locale, parsed
resource) pairs of the `.flt` files in its directory.  `none` models the
panics of the loader (including the `from_flt_resource` unwrap). -/
def loadProjectFromPath (config : ProjectConfig)
    (fltFiles : Str → List (Str × Resource)) : Option Project :=
  let project : Project :=
    { name := config.name, default_locale := config.default_locale, categories := [] }
  config.categories.foldlM
    (fun proj kv => do
      let cat ← loadCategory kv.1 kv.2 (fltFiles kv.1)
      pure { proj with categories := insertKeyed cat.key cat proj.categories })
    project

/-! ## The placeholder guard (`src/translate.rs`).

`convert_to_html` applies the regex `\x7b\s*(.+?)\s*\x7d` with
`replace_all`; `convert_from_html` applies `<a id="(.+?)">.+?</a>` with
`replace_all` and then decodes HTML entities.  The scanners below implement
the leftmost-first semantics of the `regex` crate for these two fixed
patterns: a match is attempted at each position from the left; `\s*` is
greedy with backtracking, `.+?` is lazy (shortest first) and `.` does not
match a newline.  Matchers return the captured group together with the
number of characters the whole match consumed. -/

/-- Regex `\s`: whitespace (the ASCII core relevant to this codebase). -/
def isRegexWs (c : Char) : Bool :=
  c = ' ' || c = '\t' || c = '\n' || c = '\r' || c = '\x0b' || c = '\x0c'

/-- Length of the leading whitespace run. -/
def leadingWsLen (s : Str) : Nat :=
  (s.takeWhile isRegexWs).length

/-- Match `\s*\x7d` against a prefix of `s`, returning the number of
characters consumed.  Backtracking over the greedy `\s*` succeeds exactly
when the first non-whitespace character is the closing brace. -/
def matchCloseBraceLen (s : Str) : Option Nat :=
  let n := leadingWsLen s
  if (s.drop n).head? = some '\x7d' then some (n + 1) else none

/-- Match the lazy `(.+?)\s*\x7d` against a prefix of `s`: the shortest
non-empty newline-free capture followed by whitespace and the closing
brace.  Returns the capture and the consumed length. -/
def lazyInner : Str → Option (Str × Nat)
  | [] => none
  | c :: rest =>
    if c = '\n' then none
    else
      match matchCloseBraceLen rest with
      | some m => some ([c], 1 + m)
      | none => (lazyInner rest).map fun p => (c :: p.1, p.2 + 1)

/-- Backtracking over the leading `\s*` after the opening brace: try the
longest whitespace prefix first, shortening on failure. -/
def tryAfterBraceGo (s : Str) : Nat → Option (Str × Nat)
  | 0 => lazyInner s
  | k + 1 =>
    match lazyInner (s.drop (k + 1)) with
    | some (i, n) => some (i, k + 1 + n)
    | none => tryAfterBraceGo s k

/-- Match `\s*(.+?)\s*\x7d` (everything after the opening brace) against a
prefix of `s`. -/
def tryAfterBrace (s : Str) : Option (Str × Nat) :=
  tryAfterBraceGo s (leadingWsLen s)

/-- The replacement of `convert_to_html` (`src/translate.rs` lines 87–89):
`<a id="…">…</a>` with the capture as both id and label. -/
def anchorToken (inner : Str) : Str :=
  "<a id=\"".data ++ inner ++ "\">".data ++ inner ++ "</a>".data

/-- `Regex::replace_all` for `\x7b\s*(.+?)\s*\x7d`: scan left to right; a
match can only start at an opening brace; continue after the consumed span.
The first argument counts characters still to be skipped because they were
consumed by a match, keeping the recursion structural. -/
def toHtmlGo : Nat → Str → Str
  | _, [] => []
  | k + 1, _ :: rest => toHtmlGo k rest
  | 0, c :: rest =>
    if c = '\x7b' then
      match tryAfterBrace rest with
      | some (inner, n) => anchorToken inner ++ toHtmlGo n rest
      | none => c :: toHtmlGo 0 rest
    else c :: toHtmlGo 0 rest

/-- `convert_to_html` (`src/translate.rs` lines 84–91). -/
def convertToHtml (text : Str) : Str :=
  toHtmlGo 0 text

/-- Match the lazy `.+?</a>` against a prefix of `s`, returning the
consumed length (non-empty newline-free filler plus the four literal
characters). -/
def lazyUntilCloseA : Str → Option Nat
  | [] => none
  | c :: rest =>
    if c = '\n' then none
    else if "</a>".data.isPrefixOf rest then some (1 + 4)
    else (lazyUntilCloseA rest).map (· + 1)

/-- Match the lazy `(.+?)">.+?</a>` (everything after the literal
`<a id="`) against a prefix of `s`, with backtracking: when the shortest
capture candidate cannot complete the rest of the pattern, the capture is
extended. -/
def matchAnchor : Str → Option (Str × Nat)
  | [] => none
  | c :: rest =>
    if c = '\n' then none
    else
      if "\">".data.isPrefixOf rest then
        match lazyUntilCloseA (rest.drop 2) with
        | some m => some ([c], 1 + 2 + m)
        | none => (matchAnchor rest).map fun p => (c :: p.1, p.2 + 1)
      else (matchAnchor rest).map fun p => (c :: p.1, p.2 + 1)

/-- The replacement of `convert_from_html` (`src/translate.rs` line 96):
`{ … }` around the capture. -/
def braceToken (inner : Str) : Str :=
  '\x7b' :: ' ' :: inner ++ [' ', '\x7d']

/-- `Regex::replace_all` for `<a id="(.+?)">.+?</a>`: scan left to right; a
match can only start at the literal `<a id="`.  The first argument counts
characters still to be skipped because they were consumed by a match,
keeping the recursion structural. -/
def fromHtmlGo : Nat → Str → Str
  | _, [] => []
  | k + 1, _ :: rest => fromHtmlGo k rest
  | 0, c :: rest =>
    if "<a id=\"".data.isPrefixOf (c :: rest) then
      match matchAnchor (rest.drop 6) with
      | some (inner, n) => braceToken inner ++ fromHtmlGo (6 + n) rest
      | none => c :: fromHtmlGo 0 rest
    else c :: fromHtmlGo 0 rest

/-- Modelled from the spec: `decode_html_entities` (the external
`html_escape` crate) — "decode any HTML entity escaping the translation
engine may have introduced around the token".  The named entities for the
characters the guard's tokens can contain are decoded; text without `&` is
untouched. -/
def decodeHtml : Nat → Str → Str
  | _, [] => []
  | k + 1, _ :: rest => decodeHtml k rest
  | 0, c :: rest =>
    if c = '&' then
      if "amp;".data.isPrefixOf rest then '&' :: decodeHtml 4 rest
      else if "lt;".data.isPrefixOf rest then '<' :: decodeHtml 3 rest
      else if "gt;".data.isPrefixOf rest then '>' :: decodeHtml 3 rest
      else if "quot;".data.isPrefixOf rest then '"' :: decodeHtml 5 rest
      else if "#39;".data.isPrefixOf rest then '\'' :: decodeHtml 4 rest
      else c :: decodeHtml 0 rest
    else c :: decodeHtml 0 rest

/-- `convert_from_html` (`src/translate.rs` lines 93–98): undo the anchor
tokens, then decode HTML entities. -/
def convertFromHtml (text : Str) : Str :=
  decodeHtml 0 (fromHtmlGo 0 text)

/-! ## The translation step (`src/translate.rs`). -/

/-- `str::split(pat)` (used as `key.split("__")`): the pieces between
non-overlapping occurrences of the separator, scanned left to right.  The
first argument counts separator characters still to be skipped, keeping the
recursion structural. -/
def splitOnSubAux (pat : Str) : Nat → Str → List Str
  | k + 1, _ :: rest => splitOnSubAux pat k rest
  | _, [] => [[]]
  | 0, c :: rest =>
    if pat.isPrefixOf (c :: rest) ∧ pat ≠ [] then
      [] :: splitOnSubAux pat (pat.length - 1) rest
    else
      match splitOnSubAux pat 0 rest with
      | h :: t => (c :: h) :: t
      | [] => [[c]]

/-- `str::split(pat)` collected into a list. -/
def splitOnSub (pat s : Str) : List Str :=
  splitOnSubAux pat 0 s

/-- `KeyedString` (`src/translate.rs` lines 29–32). -/
structure KeyedString where
  key : Str
  value : Str
deriving DecidableEq, Repr

/-- `reqwest::Error`, opaque to the translation step. -/
abbrev TransportError := Nat

/-- One HTTP round trip of `translate` (`src/translate.rs` lines 54–66),
passed as an oracle: a chunk of segments in, the translated texts in
positional order out, or a transport error. -/
abbrev TranslateOracle := List KeyedString → Except TransportError (List Str)

/-- `slice::chunks(128)` (`src/translate.rs` line 53): at most 128 segments
per call.  `cur` accumulates the current chunk in reverse and `count` is its
length, keeping the recursion structural. -/
def chunks128Aux (cur : List α) (count : Nat) : List α → List (List α)
  | [] => if count = 0 then [] else [cur.reverse]
  | x :: rest =>
    if count + 1 = 128 then (x :: cur).reverse :: chunks128Aux [] 0 rest
    else chunks128Aux (x :: cur) (count + 1) rest

/-- `slice::chunks(128)`. -/
def chunks128 (l : List α) : List (List α) :=
  chunks128Aux [] 0 l

/-- `translate` (`src/translate.rs` lines 41–79): call the oracle once per
chunk, zip each response positionally with its chunk's segments, and
concatenate; the first failing chunk aborts.  Each produced pair is a
`KeyedTranslation`'s key and target (its `source` field is never read by
`process`). -/
def translateModel (oracle : TranslateOracle) (segments : List KeyedString) :
    Except TransportError (List (Str × Str)) :=
  (chunks128 segments).foldlM
    (fun translated q => do
      let ts ← oracle q
      pure (translated ++ (ts.zip q).map fun p => (p.2.key, p.1)))
    []

/-- The segments built for one unit by `process` (`src/translate.rs` lines
110–129): the protected main text under the unit key, then each protected
attribute under `key__attr`. -/
def segmentsOfUnit (key : Str) (x : TranslationUnit) : List KeyedString :=
  ⟨key, convertToHtml x.main⟩ ::
    x.attributes.map fun av => ⟨key ++ '_' :: '_' :: av.1, convertToHtml av.2⟩

/-- All segments of a category's base strings, in unit order. -/
def segmentsOfMap (base : TranslationUnitMap) : List KeyedString :=
  (base.translation_units.map fun kv => segmentsOfUnit kv.1 kv.2).flatten

/-- One iteration of the rebuild loop of `process` (`src/translate.rs`
lines 140–155): split the key on `__`; an attribute key looks up its base
unit (`get_mut(..).unwrap()`, whose failure is the panic modelled by
`none`), a base key inserts a fresh unit; targets are unprotected with
`convert_from_html`. -/
def rebuildStep (out : TranslationUnitMap) (kv : Str × Str) : Option TranslationUnitMap :=
  match splitOnSub ('_' :: ['_']) kv.1 with
  | [] => none
  | base_id :: metaRest =>
    match metaRest.head? with
    | some meta_id =>
      match lookupKeyed base_id out.translation_units with
      | none => none
      | some _ =>
        some { out with
          translation_units :=
            updateKeyed base_id
              (fun u => { u with attributes := insertKeyed meta_id (convertFromHtml kv.2) u.attributes })
              out.translation_units }
    | none =>
      some { out with
        translation_units :=
          insertKeyed base_id ⟨base_id, convertFromHtml kv.2, []⟩ out.translation_units }

/-- The observable outcome of `process`: a new project, a propagated
transport error, or a panic (`unwrap` failure). -/
inductive TranslateOutcome (α : Type) : Type
  | ok (a : α)
  | transportErr (e : TransportError)
  | panicked
deriving DecidableEq, Repr

/-- The per-category body of `process` (`src/translate.rs` lines 107–157):
build the protected segments from the base strings (`base_strings()`
unwraps — a missing default locale panics), translate them, rebuild a
`TranslationUnitMap` for the target locale, and insert it into the
category. -/
def processCategory (oracle : TranslateOracle) (target_language : Str)
    (v : Category) : TranslateOutcome Category :=
  match v.baseStringsOpt with
  | none => .panicked
  | some base =>
    let strings := segmentsOfMap base
    match translateModel oracle strings with
    | .error e => .transportErr e
    | .ok translated =>
      match translated.foldlM rebuildStep ⟨target_language, []⟩ with
      | none => .panicked
      | some out =>
        .ok { v with translation_units := insertKeyed out.locale out v.translation_units }

/-- The category loop of `process`. -/
def processCategories (oracle : TranslateOracle) (target_language : Str) :
    List (Str × Category) → TranslateOutcome (KeyedList Category)
  | [] => .ok []
  | (k, v) :: rest =>
    match processCategory oracle target_language v with
    | .transportErr e => .transportErr e
    | .panicked => .panicked
    | .ok v' =>
      match processCategories oracle target_language rest with
      | .transportErr e => .transportErr e
      | .panicked => .panicked
      | .ok rest' => .ok ((k, v') :: rest')

/-- `process` (`src/translate.rs` lines 100–161): clone of the input with
every category's target-locale map inserted, or the first error.  The input
project is taken by shared reference in the source and never mutated; the
clone the loop mutates is dropped when an error propagates. -/
def process (input : Project) (target_language : Str) (oracle : TranslateOracle) :
    TranslateOutcome Project :=
  match processCategories oracle target_language input.categories with
  | .transportErr e => .transportErr e
  | .panicked => .panicked
  | .ok categories => .ok { input with categories := categories }

/-! ## The spreadsheet importer (`src/xlsx.rs`), abstracted at the
`calamine` boundary: a workbook is a list of sheets, a sheet a name plus
rows, a row a list of cells, and each cell the `Option<String>` that
`Data::as_string` yields. -/

/-- A worksheet row: each cell as `Data::as_string` returns it. -/
abbrev Row := List (Option Str)

/-- A worksheet: its name and its rows. -/
structure Sheet where
  name : Str
  rows : List Row
deriving DecidableEq, Repr

/-- `str::split_whitespace` collected into a list: maximal runs of
non-whitespace characters.  `cur` accumulates the current run in
reverse. -/
def splitWsGo (cur : Str) : Str → List Str
  | [] => if cur.isEmpty then [] else [cur.reverse]
  | c :: rest =>
    if c.isWhitespace then
      if cur.isEmpty then splitWsGo [] rest else cur.reverse :: splitWsGo [] rest
    else splitWsGo (c :: cur) rest

/-- The language-code extraction applied to each header cell (`src/xlsx.rs`
lines 56–70): trim, take the last whitespace-separated token, keep it only
when parenthesized, and strip the parentheses.  (`LanguageIdentifier`
validation is the external `icu` crate and is modelled as accepting the
string verbatim.) -/
def cellLangCode (cell : Option Str) : Option Str :=
  match cell with
  | none => none
  | some x =>
    match (splitWsGo [] (trimStr x)).getLast? with
    | none => none
    | some tok =>
      if tok.head? = some '(' ∧ tok.getLast? = some ')' then
        some ((((tok.dropWhile (· = '(')).reverse.dropWhile (· = ')')).reverse))
      else none

/-- `as_string().filter(|x| !x.trim().is_empty())` (`src/xlsx.rs` lines
106–111). -/
def cellNonEmpty (cell : Option Str) : Option Str :=
  cell.bind fun x => if (trimStr x).isEmpty then none else some x

/-- The per-language-column body of the row loop (`src/xlsx.rs` lines
105–146).  `none` models the panics (`row.get(..).unwrap()` on a short row,
`languages.get_mut(..).unwrap()` on an absent column locale). -/
def xlsxRowCol (id : Str) (meta_key : Option Str) (row : Row)
    (languages : KeyedList TranslationUnitMap) (col : Nat × Str) :
    Option (KeyedList TranslationUnitMap) :=
  match row.get? col.1 with
  | none => none
  | some cell =>
    match cellNonEmpty cell with
    | none => some languages
    | some col_str =>
      match meta_key with
      | some meta =>
        match lookupKeyed col.2 languages with
        | none => none
        | some tum =>
          match lookupKeyed id tum.translation_units with
          | none => some languages
          | some _ =>
            some (updateKeyed col.2
              (fun tum => { tum with
                translation_units :=
                  updateKeyed id
                    (fun u => { u with attributes := insertKeyed meta col_str u.attributes })
                    tum.translation_units })
              languages)
      | none =>
        match lookupKeyed col.2 languages with
        | none => none
        | some _ =>
          some (updateKeyed col.2
            (fun tum => { tum with
              translation_units := insertKeyed id ⟨id, col_str, []⟩ tum.translation_units })
            languages)

/-- One data row of the importer (`src/xlsx.rs` lines 88–147). -/
def xlsxRow (idIdx baseIdx : Nat) (langCols : List (Nat × Str))
    (languages : KeyedList TranslationUnitMap) (row : Row) :
    Option (KeyedList TranslationUnitMap) :=
  match row.get? idIdx with
  | none => none
  | some idCell =>
    match idCell with
    | none => some languages
    | some idStr =>
      match splitOnSub ('_' :: ['_']) idStr with
      | [] => none
      | id :: metaRest =>
        let meta_key := metaRest.head?
        match row.get? baseIdx with
        | none => none
        | some baseCell =>
          match baseCell with
          | none => some languages
          | some _ => langCols.foldlM (xlsxRowCol id meta_key row) languages

/-- One worksheet of the importer (`src/xlsx.rs` lines 44–156): `none` is a
panic, `some none` a skipped sheet (no identifier column or no language
column), `some (some c)` the produced category.  `snake` stands for the
external `heck::ToSnakeCase` transform applied to the sheet name. -/
def parseXlsxSheet (snake : Str → Str) (sheet : Sheet) : Option (Option Category) :=
  match sheet.rows with
  | [] => none
  | headers :: rows =>
    match headers.findIdx? (fun cell => cell = some "Identifier".data) with
    | none => some none
    | some idIdx =>
      let langCols :=
        (headers.enum.filterMap fun ic => (cellLangCode ic.2).map fun code => (ic.1, code))
      match langCols with
      | [] => some none
      | (baseIdx, baseCode) :: _ =>
        let languages :=
          langCols.foldl (fun m col => insertKeyed col.2 ⟨col.2, []⟩ m) []
        match rows.foldlM (xlsxRow idIdx baseIdx langCols) languages with
        | none => none
        | some languages =>
          some (some
            { key := snake sheet.name
              name := sheet.name
              default_locale := baseCode
              descriptions := []
              translation_units := languages })

/-- The folded body of `parse_xlsx`'s sheet loop: a panicking sheet
propagates, a skipped sheet leaves the map unchanged, a parsed sheet is
inserted under its snake-cased key. -/
def parseXlsxStep (snake : Str → Str) (cats : KeyedList Category) (sheet : Sheet) :
    Option (KeyedList Category) :=
  match parseXlsxSheet snake sheet with
  | none => none
  | some none => some cats
  | some (some cat) => some (insertKeyed cat.key cat cats)

/-- `parse_xlsx` (`src/xlsx.rs` lines 30–163): every sheet except `TODO`,
collected into a default project. -/
def parseXlsx (snake : Str → Str) (sheets : List Sheet) : Option Project :=
  ((sheets.filter fun (s : Sheet) => s.name ≠ "TODO".data).foldlM (parseXlsxStep snake) []).map
    fun categories =>
      { name := "Untitled".data, default_locale := none, categories := categories }

/-! ## Claim-side predicates and proof infrastructure.

The definitions below do not translate source code: the `Claim…`
definitions transcribe the frozen claims' own wording (to be compared with
the source-translated functions above), and the remaining ones are
well-formedness predicates and helpers used by the theorems. -/

/-- `b'` is `b` with some text appended (the only way the serializer's
writer ever grows, variant stars aside). -/
def BufferExtends (b b' : Str) : Prop :=
  ∃ t, b' = b ++ t

/-- Claim C4's wording: an expression that is — possibly through one or
more levels of nested inline placeable wrapping — a select expression. -/
inductive UltimatelySelect : Expression → Prop
  | base (selector : InlineExpression) (variants : List Variant) :
      UltimatelySelect (.select selector variants)
  | wrap (e : Expression) : UltimatelySelect e → UltimatelySelect (.inline (.placeable e))

/-- Claim C4's wording: the pattern begins with a plain-text element whose
content starts with `.`. -/
def ClaimBeginsDot (p : Pattern) : Prop :=
  ∃ s rest, p.elements = PatternElement.textElement s :: rest ∧ s.head? = some '.'

/-- Claim C4's wording: the pattern is multiline — some text element
contains an embedded newline, or some placeable's expression is (through
nested inline placeable wrapping) a select expression. -/
def ClaimMultiline (p : Pattern) : Prop :=
  (∃ s, PatternElement.textElement s ∈ p.elements ∧ '\n' ∈ s) ∨
    (∃ e, PatternElement.placeable e ∈ p.elements ∧ UltimatelySelect e)

/-- A raw text for which the bridge's escaping and re-indentation are
inert: non-empty, a single line, already trimmed, and free of the reserved
characters the escape pass rewrites and of the braces the grammar would
interpret. -/
def cleanText (s : Str) : Bool :=
  !s.isEmpty &&
    s.all (fun c => !(c = '*' || c = '\\' || c = '\x7b' || c = '\x7d' || c = '\n' || c = '\r')) &&
    !(s.head?.elim false Char.isWhitespace) && !(s.getLast?.elim false Char.isWhitespace)

/-- A translation unit map whose texts are all `cleanText` and whose key
lists are strictly sorted (the `BTreeMap` invariant). -/
def tmClean (tm : TranslationUnitMap) : Bool :=
  sortedKeys tm.translation_units &&
    tm.translation_units.all fun kv =>
      kv.1 = kv.2.key && cleanText kv.2.main && sortedKeys kv.2.attributes &&
        kv.2.attributes.all (fun av => cleanText av.2)

/-- The resource the external Fluent parser returns for the source the
bridge synthesizes from a `tmClean` unit map with no descriptions: one
message per unit in order, each pattern a single text element holding the
clean text (block indentation and the trailing blank stripped by the
grammar's pattern rules). -/
def expectedResource (tm : TranslationUnitMap) : Resource :=
  ⟨tm.translation_units.map fun kv =>
    .message
      { id := kv.1
        value := some ⟨[.textElement kv.2.main]⟩
        attributes := kv.2.attributes.map fun av => ⟨av.1, ⟨[.textElement av.2]⟩⟩
        comment := none }⟩

/-- A unit map with every main and attribute text prefixed by one space —
what the tree→model path actually recovers for clean single-line texts. -/
def withLeadingSpaces (tm : TranslationUnitMap) : TranslationUnitMap :=
  { locale := tm.locale
    translation_units := tm.translation_units.map fun kv =>
      (kv.1,
        { key := kv.2.key
          main := ' ' :: kv.2.main
          attributes := kv.2.attributes.map fun av => (av.1, ' ' :: av.2) }) }

/-- Claim C1's wording, for a given parser oracle: every unit map sent
through the model→tree path and back through the tree→model path recovers
the original main and attribute texts exactly (the claim's "up to the
escaping policy" is exact recovery on escape-free texts, the escaping being
claimed to be its own inverse). -/
def RoundTripFaithful (parse : FluentParse) : Prop :=
  ∀ tm : TranslationUnitMap, tmClean tm = true →
    ∀ r : Resource, toFltResource tm [] parse = .ok r →
      fromFltResource tm.locale r = some tm

/-- A segment of prose or one placeable span, claim C3's input shape. -/
inductive Chunk : Type
  | prose (s : Str)
  | span (inner : Str)
deriving DecidableEq, Repr

/-- Render a chunk: prose verbatim, a span as `{ inner }`. -/
def renderChunk : Chunk → Str
  | .prose s => s
  | .span inner => '\x7b' :: ' ' :: inner ++ [' ', '\x7d']

/-- Render a chunk list. -/
def renderText (cs : List Chunk) : Str :=
  (cs.map renderChunk).flatten

/-- Ordinary prose for the guard: no braces (which would start or extend a
placeable match), no `<` (which could collide with the anchor literal) and
no `&` (which entity decoding would rewrite). -/
def proseOk (s : Str) : Bool :=
  s.all fun c => !(c = '\x7b' || c = '\x7d' || c = '<' || c = '&')

/-- A well-formed placeable interior: non-empty, free of newline, braces,
the anchor delimiter characters and `&`, and not starting or ending in
whitespace (the regex trims `\s*` on both sides). -/
def innerOk (s : Str) : Bool :=
  !s.isEmpty &&
    s.all (fun c =>
      !(c = '\x7b' || c = '\x7d' || c = '<' || c = '>' || c = '&' || c = '"' || c = '\n')) &&
    !(s.head?.elim false isRegexWs) && !(s.getLast?.elim false isRegexWs)

/-- A well-formed chunk. -/
def chunkOk : Chunk → Bool
  | .prose s => proseOk s
  | .span inner => innerOk inner

/-- Every message entry of the resource carries a value pattern (the
precondition under which `from_flt_resource` is total). -/
def allMessagesHaveValue (r : Resource) : Bool :=
  r.body.all fun e =>
    match e with
    | .message m => m.value.isSome
    | _ => true

/-- A key that survives the `__` splitting convention intact: non-empty,
no embedded `__`, and no `_` at either end (so concatenating
`base ++ "__" ++ attr` splits back into `base` and `attr`). -/
def cleanId (s : Str) : Bool :=
  !s.isEmpty && (splitOnSub ('_' :: ['_']) s).length == 1 &&
    s.head? ≠ some '_' && s.getLast? ≠ some '_'

/-- All unit and attribute identifiers of a unit map are `cleanId`. -/
def tmIdsClean (tm : TranslationUnitMap) : Bool :=
  tm.translation_units.all fun kv =>
    cleanId kv.1 && kv.1 = kv.2.key && kv.2.attributes.all fun av => cleanId av.1

/-- The protected form of a chunk: prose untouched, a span replaced by the
anchor token `convert_to_html` produces. -/
def protectChunk : Chunk → Str
  | .prose s => s
  | .span inner => anchorToken inner

/-! ## Order and keyed-list lemmas. -/

theorem strLt_irrefl (a : Str) : strLt a a = false := by
  induction a with
  | nil => rfl
  | cons c rest ih => simp [strLt, ih]

theorem strLt_trans {a b c : Str} (hab : strLt a b = true) (hbc : strLt b c = true) :
    strLt a c = true := by
  induction a generalizing b c with
  | nil =>
    cases c with
    | nil => cases b <;> simp [strLt] at hab hbc
    | cons _ _ => rfl
  | cons x xs ih =>
    cases b with
    | nil => simp [strLt] at hab
    | cons y ys =>
      cases c with
      | nil => simp [strLt] at hbc
      | cons z zs =>
        simp only [strLt] at hab hbc ⊢
        split at hab
        · rename_i hxy
          split at hbc
          · rename_i hyz
            simp [lt_trans hxy hyz]
          · split at hbc
            · rename_i _ hyz
              subst hyz
              simp [hxy]
            · exact absurd hbc (by simp)
        · split at hab
          · rename_i _ hxy
            subst hxy
            split at hbc
            · rename_i hyz
              simp [hyz]
            · split at hbc
              · rename_i _ hyz
                subst hyz
                simp [ih hab hbc]
              · exact absurd hbc (by simp)
          · exact absurd hab (by simp)

theorem strLt_asymm {a b : Str} (h : strLt a b = true) : strLt b a = false := by
  by_contra hc
  have hba : strLt b a = true := by
    cases hx : strLt b a
    · exact absurd hx hc
    · rfl
  have := strLt_trans h hba
  rw [strLt_irrefl] at this
  exact Bool.noConfusion this

theorem strLt_ne {a b : Str} (h : strLt a b = true) : a ≠ b := by
  intro he
  subst he
  rw [strLt_irrefl] at h
  exact Bool.noConfusion h

theorem lookup_insert_self (k : Str) (v : α) (l : KeyedList α) :
    lookupKeyed k (insertKeyed k v l) = some v := by
  induction l with
  | nil => simp [insertKeyed, lookupKeyed]
  | cons p rest ih =>
    obtain ⟨k', v'⟩ := p
    by_cases hlt : strLt k k' = true
    · simp [insertKeyed, hlt, lookupKeyed]
    · by_cases he : k = k'
      · subst he
        simp [insertKeyed, hlt, lookupKeyed]
      · simp [insertKeyed, hlt, he, lookupKeyed, ih]

theorem lookup_insert_ne {k k' : Str} (hne : k ≠ k') (v : α) (l : KeyedList α) :
    lookupKeyed k (insertKeyed k' v l) = lookupKeyed k l := by
  induction l with
  | nil => simp [insertKeyed, lookupKeyed, hne]
  | cons p rest ih =>
    obtain ⟨k'', v''⟩ := p
    by_cases hlt : strLt k' k'' = true
    · simp [insertKeyed, hlt, lookupKeyed, hne]
    · by_cases he : k' = k''
      · subst he
        simp [insertKeyed, hlt, lookupKeyed, hne]
      · by_cases hk : k = k''
        · subst hk
          simp [insertKeyed, hlt, he, lookupKeyed]
        · simp [insertKeyed, hlt, he, lookupKeyed, hk, ih]

theorem lookup_update_self (k : Str) (f : α → α) (l : KeyedList α) :
    lookupKeyed k (updateKeyed k f l) = (lookupKeyed k l).map f := by
  induction l with
  | nil => simp [updateKeyed, lookupKeyed]
  | cons p rest ih =>
    obtain ⟨k', v'⟩ := p
    by_cases he : k = k'
    · subst he
      simp [updateKeyed, lookupKeyed]
    · simp [updateKeyed, lookupKeyed, he, ih]

theorem lookup_update_ne {k k' : Str} (hne : k ≠ k') (f : α → α) (l : KeyedList α) :
    lookupKeyed k (updateKeyed k' f l) = lookupKeyed k l := by
  induction l with
  | nil => simp [updateKeyed, lookupKeyed]
  | cons p rest ih =>
    obtain ⟨k'', v''⟩ := p
    by_cases he : k' = k''
    · subst he
      simp [updateKeyed, lookupKeyed, hne, ih]
    · by_cases hk : k = k''
      · subst hk
        simp [updateKeyed, lookupKeyed, he]
      · simp [updateKeyed, lookupKeyed, he, hk, ih]

theorem insert_append_of_forall_lt {k : Str} {v : α} {l : KeyedList α}
    (h : ∀ p ∈ l, strLt p.1 k = true) : insertKeyed k v l = l ++ [(k, v)] := by
  induction l with
  | nil => simp [insertKeyed]
  | cons p rest ih =>
    obtain ⟨k', v'⟩ := p
    have hk' : strLt k' k = true := h (k', v') (List.mem_cons_self _ _)
    have h1 : strLt k k' = false := strLt_asymm hk'
    have h2 : k ≠ k' := fun he => strLt_ne hk' he.symm
    simp only [insertKeyed, h1, h2]
    simp [ih fun p hp => h p (List.mem_cons_of_mem _ hp)]

theorem sorted_head_lt {k : Str} {v : α} {l : KeyedList α}
    (h : sortedKeys ((k, v) :: l) = true) : ∀ p ∈ l, strLt k p.1 = true := by
  induction l generalizing k v with
  | nil => intro p hp; cases hp
  | cons q rest ih =>
    obtain ⟨k', v'⟩ := q
    simp only [sortedKeys, Bool.and_eq_true] at h
    intro p hp
    rcases List.mem_cons.mp hp with he | hm
    · subst he; exact h.1
    · exact strLt_trans h.1 (ih h.2 p hm)

theorem sorted_tail {p : Str × α} {l : KeyedList α}
    (h : sortedKeys (p :: l) = true) : sortedKeys l = true := by
  obtain ⟨k, v⟩ := p
  cases l with
  | nil => rfl
  | cons q rest =>
    simp only [sortedKeys, Bool.and_eq_true] at h
    exact h.2

theorem fold_insert_sorted (g : Str → α → β) :
    ∀ (l : KeyedList α) (acc : KeyedList β),
      (∀ p ∈ acc, ∀ q ∈ l, strLt p.1 q.1 = true) → sortedKeys l = true →
      l.foldl (fun m kv => insertKeyed kv.1 (g kv.1 kv.2) m) acc =
        acc ++ l.map fun kv => (kv.1, g kv.1 kv.2) := by
  intro l
  induction l with
  | nil => intro acc _ _; simp
  | cons kv rest ih =>
    intro acc hacc hs
    obtain ⟨k, u⟩ := kv
    have hins : insertKeyed k (g k u) acc = acc ++ [(k, g k u)] :=
      insert_append_of_forall_lt fun p hp => hacc p hp (k, u) (List.mem_cons_self _ _)
    have hrest : ∀ p ∈ acc ++ [(k, g k u)], ∀ q ∈ rest, strLt p.1 q.1 = true := by
      intro p hp q hq
      rcases List.mem_append.mp hp with hm | hm
      · exact hacc p hm q (List.mem_cons_of_mem _ hq)
      · rcases List.mem_singleton.mp hm with he
        subst he
        exact sorted_head_lt hs q hq
    simp only [List.foldl_cons, hins]
    rw [ih (acc ++ [(k, g k u)]) hrest (sorted_tail hs)]
    simp

/-! ## Writer-primitive lemmas. -/

theorem BufferExtends.rfl (b : Str) : BufferExtends b b :=
  ⟨[], by simp⟩

theorem BufferExtends.trans {a b c : Str} (h1 : BufferExtends a b)
    (h2 : BufferExtends b c) : BufferExtends a c := by
  obtain ⟨t1, rfl⟩ := h1
  obtain ⟨t2, rfl⟩ := h2
  exact ⟨t1 ++ t2, by simp⟩

theorem writeLiteral_indentLevel (w : TextWriter) (item : Str) :
    (w.writeLiteral item).indentLevel = w.indentLevel := by
  simp only [TextWriter.writeLiteral, TextWriter.writeIndent]
  split <;> rfl

theorem writeLiteral_extends (w : TextWriter) (item : Str) :
    BufferExtends w.buffer (w.writeLiteral item).buffer := by
  simp only [TextWriter.writeLiteral, TextWriter.writeIndent]
  split
  · exact ⟨List.replicate (4 * w.indentLevel) ' ' ++ item, by simp⟩
  · exact ⟨item, rfl⟩

theorem writeLiteral_of_not_newline {w : TextWriter} (h : ¬ endsWithChar w.buffer '\n')
    (item : Str) : w.writeLiteral item = { w with buffer := w.buffer ++ item } := by
  simp only [TextWriter.writeLiteral]
  rw [if_neg (by simpa using h)]

theorem newline_indentLevel (w : TextWriter) : w.newline.indentLevel = w.indentLevel := by
  simp only [TextWriter.newline]
  split <;> rfl

theorem newline_extends (w : TextWriter) : BufferExtends w.buffer w.newline.buffer := by
  simp only [TextWriter.newline]
  split
  · exact ⟨_, rfl⟩
  · exact ⟨_, rfl⟩

theorem newline_of_not_cr {w : TextWriter} (h : ¬ endsWithChar w.buffer '\r') :
    w.newline = { w with buffer := w.buffer ++ ['\n'] } := by
  simp only [TextWriter.newline]
  rw [if_neg (by simpa using h)]

theorem newline_endsWith (w : TextWriter) :
    endsWithChar w.newline.buffer '\n' = true := by
  simp only [TextWriter.newline, endsWithChar]
  split
  · rw [show w.buffer ++ ['\r', '\n'] = (w.buffer ++ ['\r']) ++ ['\n'] by simp]
    simp [List.getLast?_concat]
  · simp [List.getLast?_concat]

theorem writeCharIntoIndent_indentLevel (w : TextWriter) (c : Char) :
    (w.writeCharIntoIndent c).indentLevel = w.indentLevel := by
  simp only [TextWriter.writeCharIntoIndent, TextWriter.writeIndent]
  split <;> rfl

theorem writeCharIntoIndent_extends {w : TextWriter} (c : Char)
    (hn : endsWithChar w.buffer '\n' = true) (hl : 1 ≤ w.indentLevel) :
    BufferExtends w.buffer (w.writeCharIntoIndent c).buffer := by
  simp only [TextWriter.writeCharIntoIndent, TextWriter.writeIndent, hn, if_true]
  refine ⟨(List.replicate (4 * w.indentLevel) ' ').dropLast ++ [c], ?_⟩
  rw [List.dropLast_append_of_ne_nil]
  · simp
  · intro hrep
    have : 4 * w.indentLevel = 0 := by
      by_contra hz
      obtain ⟨m, hm⟩ := Nat.exists_eq_succ_of_ne_zero hz
      rw [hm] at hrep
      simp [List.replicate] at hrep
    omega

theorem sizeOf_list_pos [SizeOf α] (l : List α) : 0 < sizeOf l := by
  cases l <;> simp

theorem sizeOf_variantKey_pos (k : VariantKey) : 0 < sizeOf k := by
  cases k <;> simp

theorem sizeOf_inline_pos (e : InlineExpression) : 0 < sizeOf e := by
  cases e <;> simp

theorem serializeVariantKey_facts (w : TextWriter) (k : VariantKey) :
    BufferExtends w.buffer (serializeVariantKey w k).buffer ∧
      (serializeVariantKey w k).indentLevel = w.indentLevel := by
  cases k <;>
    exact ⟨writeLiteral_extends _ _, writeLiteral_indentLevel _ _⟩

theorem serializeTermRefBase_facts (w : TextWriter) (id : Str) (attr : Option Str) :
    BufferExtends w.buffer (serializeTermRefBase w id attr).buffer ∧
      (serializeTermRefBase w id attr).indentLevel = w.indentLevel := by
  cases attr with
  | some a =>
    refine ⟨?_, by simp [serializeTermRefBase, writeLiteral_indentLevel]⟩
    exact (((writeLiteral_extends _ _).trans (writeLiteral_extends _ _)).trans
      (writeLiteral_extends _ _)).trans (writeLiteral_extends _ _)
  | none =>
    exact ⟨(writeLiteral_extends _ _).trans (writeLiteral_extends _ _),
      by simp [serializeTermRefBase, writeLiteral_indentLevel]⟩

theorem indent_buffer (w : TextWriter) : w.indent.buffer = w.buffer := rfl

theorem dedent_buffer (w : TextWriter) : w.dedent.buffer = w.buffer := rfl

theorem indent_level (w : TextWriter) : w.indent.indentLevel = w.indentLevel + 1 := rfl

theorem dedent_level (w : TextWriter) : w.dedent.indentLevel = w.indentLevel - 1 := rfl

/-- The serializer only appends to the writer's buffer (the variant star
overwrites only indentation it has itself just emitted) and restores the
indentation level it was called at — every `indent` is matched by exactly
one `dedent`, which in particular never underflows (the spec's
`DedentUnderflow`).  Proved for all eleven mutually recursive serializer
functions by strong induction on the size of the serialized node. -/
theorem serializerFacts :
    ∀ n : Nat,
      (∀ (w : TextWriter) (p : Pattern), sizeOf p < n →
          BufferExtends w.buffer (serializePattern w p).buffer ∧
            (serializePattern w p).indentLevel = w.indentLevel) ∧
      (∀ (w : TextWriter) (l : List PatternElement), sizeOf l < n →
          BufferExtends w.buffer (serializeElementList w l).buffer ∧
            (serializeElementList w l).indentLevel = w.indentLevel) ∧
      (∀ (w : TextWriter) (el : PatternElement), sizeOf el < n →
          BufferExtends w.buffer (serializeElement w el).buffer ∧
            (serializeElement w el).indentLevel = w.indentLevel) ∧
      (∀ (w : TextWriter) (e : Expression), sizeOf e < n →
          BufferExtends w.buffer (serializeExpression w e).buffer ∧
            (serializeExpression w e).indentLevel = w.indentLevel) ∧
      (∀ (w : TextWriter) (e : InlineExpression), sizeOf e < n →
          BufferExtends w.buffer (serializeInlineExpression w e).buffer ∧
            (serializeInlineExpression w e).indentLevel = w.indentLevel) ∧
      (∀ (w : TextWriter) (sel : InlineExpression) (vs : List Variant),
          sizeOf sel + sizeOf vs < n →
          BufferExtends w.buffer (serializeSelectExpression w sel vs).buffer ∧
            (serializeSelectExpression w sel vs).indentLevel = w.indentLevel) ∧
      (∀ (w : TextWriter) (l : List Variant), sizeOf l < n →
          endsWithChar w.buffer '\n' = true → 1 ≤ w.indentLevel →
          BufferExtends w.buffer (serializeVariantList w l).buffer ∧
            (serializeVariantList w l).indentLevel = w.indentLevel) ∧
      (∀ (w : TextWriter) (v : Variant), sizeOf v < n →
          endsWithChar w.buffer '\n' = true → 1 ≤ w.indentLevel →
          BufferExtends w.buffer (serializeVariant w v).buffer ∧
            (serializeVariant w v).indentLevel = w.indentLevel) ∧
      (∀ (w : TextWriter) (a : CallArguments), sizeOf a < n →
          BufferExtends w.buffer (serializeCallArguments w a).buffer ∧
            (serializeCallArguments w a).indentLevel = w.indentLevel) ∧
      (∀ (w : TextWriter) (b : Bool) (l : List InlineExpression), sizeOf l < n →
          BufferExtends w.buffer (serializePositionalList w b l).1.buffer ∧
            (serializePositionalList w b l).1.indentLevel = w.indentLevel) ∧
      (∀ (w : TextWriter) (b : Bool) (l : List (Str × InlineExpression)), sizeOf l < n →
          BufferExtends w.buffer (serializeNamedList w b l).1.buffer ∧
            (serializeNamedList w b l).1.indentLevel = w.indentLevel) := by
  intro n
  induction n using Nat.strong_induction_on with
  | _ n IH =>
  refine ⟨?_, ?_, ?_, ?_, ?_, ?_, ?_, ?_, ?_, ?_, ?_⟩
  · -- serializePattern
    intro w p hp
    obtain ⟨elements⟩ := p
    have hel : sizeOf elements < sizeOf (Pattern.mk elements) := by simp
    rw [serializePattern]
    split
    · have h1 := (IH _ hp).2.1 (w.newline.indent) elements hel
      constructor
      · refine (newline_extends w).trans ?_
        rw [show w.newline.buffer = (w.newline.indent).buffer from rfl]
        simpa only [dedent_buffer] using h1.1
      · rw [dedent_level, h1.2, indent_level, newline_indentLevel]
        omega
    · have h1 := (IH _ hp).2.1 (w.writeLiteral [' ']) elements hel
      exact ⟨(writeLiteral_extends _ _).trans h1.1,
        by rw [h1.2, writeLiteral_indentLevel]⟩
  · -- serializeElementList
    intro w l hl
    cases l with
    | nil =>
      constructor
      · simp only [serializeElementList]
        exact BufferExtends.rfl _
      · simp only [serializeElementList]
    | cons el rest =>
      have h1 := (IH _ hl).2.2.1 w el (by simp <;> omega)
      have h2 := (IH _ hl).2.1 (serializeElement w el) rest (by simp <;> omega)
      simp only [serializeElementList]
      exact ⟨h1.1.trans h2.1, by rw [h2.2, h1.2]⟩
  · -- serializeElement
    intro w el hl
    cases el with
    | textElement v =>
      simp only [serializeElement]
      exact ⟨writeLiteral_extends _ _, writeLiteral_indentLevel _ _⟩
    | placeable e =>
      cases e with
      | select sel vars =>
        have h1 := (IH _ hl).2.2.2.2.2.1 (w.writeLiteral ['\x7b', ' ']) sel vars
          (by simp <;> omega)
        simp only [serializeElement]
        exact ⟨((writeLiteral_extends _ _).trans h1.1).trans (writeLiteral_extends _ _),
          by rw [writeLiteral_indentLevel, h1.2, writeLiteral_indentLevel]⟩
      | inline ie =>
        cases ie with
        | placeable inner =>
          have h1 := (IH _ hl).2.2.2.1 (w.writeLiteral ('\x7b' :: '\x7b' :: [' '])) inner
            (by simp <;> omega)
          simp only [serializeElement]
          exact ⟨((writeLiteral_extends _ _).trans h1.1).trans (writeLiteral_extends _ _),
            by rw [writeLiteral_indentLevel, h1.2, writeLiteral_indentLevel]⟩
        | stringLiteral v =>
          have h1 := (IH _ hl).2.2.2.1 (w.writeLiteral ['\x7b', ' '])
            (.inline (.stringLiteral v)) (by simp <;> omega)
          simp only [serializeElement]
          exact ⟨((writeLiteral_extends _ _).trans h1.1).trans (writeLiteral_extends _ _),
            by rw [writeLiteral_indentLevel, h1.2, writeLiteral_indentLevel]⟩
        | numberLiteral v =>
          have h1 := (IH _ hl).2.2.2.1 (w.writeLiteral ['\x7b', ' '])
            (.inline (.numberLiteral v)) (by simp <;> omega)
          simp only [serializeElement]
          exact ⟨((writeLiteral_extends _ _).trans h1.1).trans (writeLiteral_extends _ _),
            by rw [writeLiteral_indentLevel, h1.2, writeLiteral_indentLevel]⟩
        | variableReference id =>
          have h1 := (IH _ hl).2.2.2.1 (w.writeLiteral ['\x7b', ' '])
            (.inline (.variableReference id)) (by simp <;> omega)
          simp only [serializeElement]
          exact ⟨((writeLiteral_extends _ _).trans h1.1).trans (writeLiteral_extends _ _),
            by rw [writeLiteral_indentLevel, h1.2, writeLiteral_indentLevel]⟩
        | functionReference id args =>
          have h1 := (IH _ hl).2.2.2.1 (w.writeLiteral ['\x7b', ' '])
            (.inline (.functionReference id args)) (by simp <;> omega)
          simp only [serializeElement]
          exact ⟨((writeLiteral_extends _ _).trans h1.1).trans (writeLiteral_extends _ _),
            by rw [writeLiteral_indentLevel, h1.2, writeLiteral_indentLevel]⟩
        | messageReference id attr =>
          have h1 := (IH _ hl).2.2.2.1 (w.writeLiteral ['\x7b', ' '])
            (.inline (.messageReference id attr)) (by simp <;> omega)
          simp only [serializeElement]
          exact ⟨((writeLiteral_extends _ _).trans h1.1).trans (writeLiteral_extends _ _),
            by rw [writeLiteral_indentLevel, h1.2, writeLiteral_indentLevel]⟩
        | termReference id attr args =>
          have h1 := (IH _ hl).2.2.2.1 (w.writeLiteral ['\x7b', ' '])
            (.inline (.termReference id attr args)) (by simp <;> omega)
          simp only [serializeElement]
          exact ⟨((writeLiteral_extends _ _).trans h1.1).trans (writeLiteral_extends _ _),
            by rw [writeLiteral_indentLevel, h1.2, writeLiteral_indentLevel]⟩
  · -- serializeExpression
    intro w e he
    cases e with
    | inline ie =>
      have h1 := (IH _ he).2.2.2.2.1 w ie (by simp <;> omega)
      simpa only [serializeExpression] using h1
    | select sel vars =>
      have h1 := (IH _ he).2.2.2.2.2.1 w sel vars (by simp <;> omega)
      simpa only [serializeExpression] using h1
  · -- serializeInlineExpression
    intro w e he
    cases e with
    | stringLiteral v =>
      simp only [serializeInlineExpression]
      exact ⟨(writeLiteral_extends _ _).trans
        ((writeLiteral_extends _ _).trans (writeLiteral_extends _ _)),
        by rw [writeLiteral_indentLevel, writeLiteral_indentLevel, writeLiteral_indentLevel]⟩
    | numberLiteral v =>
      simp only [serializeInlineExpression]
      exact ⟨writeLiteral_extends _ _, writeLiteral_indentLevel _ _⟩
    | variableReference id =>
      simp only [serializeInlineExpression]
      exact ⟨(writeLiteral_extends _ _).trans (writeLiteral_extends _ _),
        by rw [writeLiteral_indentLevel, writeLiteral_indentLevel]⟩
    | functionReference id args =>
      have h1 := (IH _ he).2.2.2.2.2.2.2.2.1 (w.writeLiteral id) args (by simp <;> omega)
      simp only [serializeInlineExpression]
      exact ⟨(writeLiteral_extends _ _).trans h1.1, by rw [h1.2, writeLiteral_indentLevel]⟩
    | messageReference id attr =>
      cases attr with
      | some a =>
        simp only [serializeInlineExpression]
        exact ⟨(writeLiteral_extends _ _).trans
          ((writeLiteral_extends _ _).trans (writeLiteral_extends _ _)),
          by rw [writeLiteral_indentLevel, writeLiteral_indentLevel, writeLiteral_indentLevel]⟩
      | none =>
        simp only [serializeInlineExpression]
        exact ⟨writeLiteral_extends _ _, writeLiteral_indentLevel _ _⟩
    | termReference id attr args =>
      cases args with
      | none =>
        simp only [serializeInlineExpression]
        exact serializeTermRefBase_facts w id attr
      | some a =>
        have h0 := serializeTermRefBase_facts w id attr
        have h1 := (IH _ he).2.2.2.2.2.2.2.2.1 (serializeTermRefBase w id attr) a
          (by simp <;> omega)
        simp only [serializeInlineExpression]
        exact ⟨h0.1.trans h1.1, by rw [h1.2, h0.2]⟩
    | placeable e =>
      have h1 := (IH _ he).2.2.2.1 (w.writeLiteral ['\x7b']) e (by simp <;> omega)
      simp only [serializeInlineExpression]
      exact ⟨((writeLiteral_extends _ _).trans h1.1).trans (writeLiteral_extends _ _),
        by rw [writeLiteral_indentLevel, h1.2, writeLiteral_indentLevel]⟩
  · -- serializeSelectExpression
    intro w sel vs hsz
    have hvs := sizeOf_list_pos vs
    have hse := sizeOf_inline_pos sel
    have h1 := (IH (sizeOf sel + 1) (by omega)).2.2.2.2.1 w sel (by omega)
    have hnl : endsWithChar
        (((serializeInlineExpression w sel).writeLiteral [' ', '-', '>']).newline.indent).buffer
        '\n' = true := by
      rw [indent_buffer]
      exact newline_endsWith _
    have h2 := (IH (sizeOf vs + 1) (by omega)).2.2.2.2.2.2.1
      (((serializeInlineExpression w sel).writeLiteral [' ', '-', '>']).newline.indent) vs
      (by omega) hnl (by rw [indent_level]; omega)
    simp only [serializeSelectExpression]
    constructor
    · rw [dedent_buffer]
      have hx := h2.1
      rw [indent_buffer] at hx
      exact ((h1.1.trans (writeLiteral_extends _ _)).trans (newline_extends _)).trans hx
    · rw [dedent_level, h2.2, indent_level, newline_indentLevel, writeLiteral_indentLevel, h1.2]
      omega
  · -- serializeVariantList
    intro w l hl hnl hlev
    cases l with
    | nil =>
      constructor
      · simp only [serializeVariantList]
        exact BufferExtends.rfl _
      · simp only [serializeVariantList]
    | cons v rest =>
      have h1 := (IH _ hl).2.2.2.2.2.2.2.1 w v (by simp <;> omega) hnl hlev
      have h2 := (IH _ hl).2.2.2.2.2.2.1 (serializeVariant w v).newline rest
        (by simp <;> omega) (newline_endsWith _)
        (by rw [newline_indentLevel, h1.2]; exact hlev)
      simp only [serializeVariantList]
      exact ⟨(h1.1.trans (newline_extends _)).trans h2.1,
        by rw [h2.2, newline_indentLevel, h1.2]⟩
  · -- serializeVariant
    intro w v hv hnl hlev
    obtain ⟨key, value, dflt⟩ := v
    have hsz : sizeOf (Pattern.mk value) < sizeOf (Variant.mk key value dflt) := by
      have := sizeOf_variantKey_pos key
      cases dflt <;> simp <;> omega
    cases dflt with
    | false =>
      have hk := serializeVariantKey_facts (w.writeLiteral ['[']) key
      have hp := (IH _ hv).1
        ((serializeVariantKey (w.writeLiteral ['[']) key).writeLiteral [']']) ⟨value⟩ hsz
      simp only [serializeVariant, Bool.false_eq_true, if_false]
      constructor
      · exact (writeLiteral_extends _ _).trans
          (hk.1.trans ((writeLiteral_extends _ _).trans hp.1))
      · rw [hp.2, writeLiteral_indentLevel, hk.2, writeLiteral_indentLevel]
    | true =>
      have h0 : BufferExtends w.buffer (w.writeCharIntoIndent '*').buffer :=
        writeCharIntoIndent_extends '*' hnl hlev
      have hk := serializeVariantKey_facts ((w.writeCharIntoIndent '*').writeLiteral ['[']) key
      have hp := (IH _ hv).1
        ((serializeVariantKey ((w.writeCharIntoIndent '*').writeLiteral ['[']) key).writeLiteral
          [']']) ⟨value⟩ hsz
      simp only [serializeVariant, if_true]
      constructor
      · exact h0.trans ((writeLiteral_extends _ _).trans
          (hk.1.trans ((writeLiteral_extends _ _).trans hp.1)))
      · rw [hp.2, writeLiteral_indentLevel, hk.2, writeLiteral_indentLevel,
          writeCharIntoIndent_indentLevel]
  · -- serializeCallArguments
    intro w a ha
    obtain ⟨positional, named⟩ := a
    have hP := (IH _ ha).2.2.2.2.2.2.2.2.2.1 (w.writeLiteral ['(']) false positional
      (by simp <;> omega)
    have hN := (IH _ ha).2.2.2.2.2.2.2.2.2.2
      (serializePositionalList (w.writeLiteral ['(']) false positional).1
      (serializePositionalList (w.writeLiteral ['(']) false positional).2 named
      (by simp <;> omega)
    simp only [serializeCallArguments]
    constructor
    · exact (writeLiteral_extends _ _).trans
        ((hP.1.trans hN.1).trans (writeLiteral_extends _ _))
    · rw [writeLiteral_indentLevel, hN.2, hP.2, writeLiteral_indentLevel]
  · -- serializePositionalList
    intro w b l hl
    cases l with
    | nil =>
      constructor
      · simp only [serializePositionalList]
        exact BufferExtends.rfl _
      · simp only [serializePositionalList]
    | cons p rest =>
      cases b with
      | false =>
        have h1 := (IH _ hl).2.2.2.2.1 w p (by simp <;> omega)
        have h2 := (IH _ hl).2.2.2.2.2.2.2.2.2.1 (serializeInlineExpression w p) true rest
          (by simp <;> omega)
        simp only [serializePositionalList, Bool.false_eq_true, if_false]
        exact ⟨h1.1.trans h2.1, by rw [h2.2, h1.2]⟩
      | true =>
        have h1 := (IH _ hl).2.2.2.2.1 (w.writeLiteral [',', ' ']) p (by simp <;> omega)
        have h2 := (IH _ hl).2.2.2.2.2.2.2.2.2.1
          (serializeInlineExpression (w.writeLiteral [',', ' ']) p) true rest
          (by simp <;> omega)
        simp only [serializePositionalList, if_true]
        exact ⟨(writeLiteral_extends _ _).trans (h1.1.trans h2.1),
          by rw [h2.2, h1.2, writeLiteral_indentLevel]⟩
  · -- serializeNamedList
    intro w b l hl
    cases l with
    | nil =>
      constructor
      · simp only [serializeNamedList]
        exact BufferExtends.rfl _
      · simp only [serializeNamedList]
    | cons nv rest =>
      obtain ⟨name, value⟩ := nv
      cases b with
      | false =>
        have h1 := (IH _ hl).2.2.2.2.1 ((w.writeLiteral name).writeLiteral [':', ' ']) value
          (by simp <;> omega)
        have h2 := (IH _ hl).2.2.2.2.2.2.2.2.2.2
          (serializeInlineExpression ((w.writeLiteral name).writeLiteral [':', ' ']) value)
          true rest (by simp <;> omega)
        simp only [serializeNamedList, Bool.false_eq_true, if_false]
        exact ⟨(writeLiteral_extends _ _).trans
          ((writeLiteral_extends _ _).trans (h1.1.trans h2.1)),
          by rw [h2.2, h1.2, writeLiteral_indentLevel, writeLiteral_indentLevel]⟩
      | true =>
        have h1 := (IH _ hl).2.2.2.2.1
          (((w.writeLiteral [',', ' ']).writeLiteral name).writeLiteral [':', ' ']) value
          (by simp <;> omega)
        have h2 := (IH _ hl).2.2.2.2.2.2.2.2.2.2
          (serializeInlineExpression
            (((w.writeLiteral [',', ' ']).writeLiteral name).writeLiteral [':', ' ']) value)
          true rest (by simp <;> omega)
        simp only [serializeNamedList, if_true]
        exact ⟨(writeLiteral_extends _ _).trans ((writeLiteral_extends _ _).trans
          ((writeLiteral_extends _ _).trans (h1.1.trans h2.1))),
          by rw [h2.2, h1.2, writeLiteral_indentLevel, writeLiteral_indentLevel,
            writeLiteral_indentLevel]⟩

theorem serializePattern_extends (w : TextWriter) (p : Pattern) :
    BufferExtends w.buffer (serializePattern w p).buffer :=
  (((serializerFacts (sizeOf p + 1)).1) w p (by omega)).1

theorem serializePattern_indentLevel (w : TextWriter) (p : Pattern) :
    (serializePattern w p).indentLevel = w.indentLevel :=
  (((serializerFacts (sizeOf p + 1)).1) w p (by omega)).2

theorem serializeElementList_extends (w : TextWriter) (l : List PatternElement) :
    BufferExtends w.buffer (serializeElementList w l).buffer :=
  (((serializerFacts (sizeOf l + 1)).2.1) w l (by omega)).1

theorem serializeElementList_indentLevel (w : TextWriter) (l : List PatternElement) :
    (serializeElementList w l).indentLevel = w.indentLevel :=
  (((serializerFacts (sizeOf l + 1)).2.1) w l (by omega)).2

/-! ## The pattern layout decision (claim C4). -/

theorem isSelectExprBound :
    ∀ n : Nat, ∀ e : Expression, sizeOf e < n →
      (isSelectExpr e = true ↔ UltimatelySelect e) := by
  intro n
  induction n using Nat.strong_induction_on with
  | _ n IH =>
  intro e he
  cases e with
  | select sel vars =>
    simp only [isSelectExpr]
    exact ⟨fun _ => .base sel vars, fun _ => trivial⟩
  | inline ie =>
    cases ie with
    | placeable inner =>
      have hi := IH (sizeOf (Expression.inline (.placeable inner))) he inner
        (by simp <;> omega)
      simp only [isSelectExpr]
      constructor
      · intro h
        exact .wrap inner (hi.mp h)
      · intro h
        cases h with
        | wrap _ hu => exact hi.mpr hu
    | stringLiteral v =>
      simp only [isSelectExpr]
      exact ⟨fun h => Bool.noConfusion h, fun h => by cases h⟩
    | numberLiteral v =>
      simp only [isSelectExpr]
      exact ⟨fun h => Bool.noConfusion h, fun h => by cases h⟩
    | variableReference id =>
      simp only [isSelectExpr]
      exact ⟨fun h => Bool.noConfusion h, fun h => by cases h⟩
    | functionReference id args =>
      simp only [isSelectExpr]
      exact ⟨fun h => Bool.noConfusion h, fun h => by cases h⟩
    | messageReference id attr =>
      simp only [isSelectExpr]
      exact ⟨fun h => Bool.noConfusion h, fun h => by cases h⟩
    | termReference id attr args =>
      simp only [isSelectExpr]
      exact ⟨fun h => Bool.noConfusion h, fun h => by cases h⟩

theorem isSelectExpr_ultimately (e : Expression) :
    isSelectExpr e = true ↔ UltimatelySelect e :=
  isSelectExprBound (sizeOf e + 1) e (by omega)

theorem isMultiline_iff (p : Pattern) : isMultiline p = true ↔ ClaimMultiline p := by
  simp only [isMultiline, List.any_eq_true, ClaimMultiline]
  constructor
  · rintro ⟨el, hmem, hpred⟩
    cases el with
    | textElement s =>
      left
      refine ⟨s, hmem, ?_⟩
      simpa using hpred
    | placeable e =>
      right
      exact ⟨e, hmem, (isSelectExpr_ultimately e).mp hpred⟩
  · rintro (⟨s, hmem, hc⟩ | ⟨e, hmem, hus⟩)
    · exact ⟨.textElement s, hmem, by simpa using hc⟩
    · exact ⟨.placeable e, hmem, (isSelectExpr_ultimately e).mpr hus⟩

theorem hasLeadingTextDot_iff (p : Pattern) :
    hasLeadingTextDot p = true ↔ ClaimBeginsDot p := by
  obtain ⟨elements⟩ := p
  cases elements with
  | nil =>
    simp only [hasLeadingTextDot, ClaimBeginsDot, List.head?]
    constructor
    · intro h
      exact Bool.noConfusion h
    · rintro ⟨s, rest, h, _⟩
      cases h
  | cons el rest =>
    cases el with
    | textElement s =>
      simp only [hasLeadingTextDot, ClaimBeginsDot, List.head?]
      constructor
      · intro h
        exact ⟨s, rest, rfl, by simpa using h⟩
      · rintro ⟨s', rest', he, hh⟩
        cases he
        simpa using hh
    | placeable e =>
      simp only [hasLeadingTextDot, ClaimBeginsDot, List.head?]
      constructor
      · intro h
        exact Bool.noConfusion h
      · rintro ⟨s', rest', he, _⟩
        cases he

theorem startsOnNewLine_iff (p : Pattern) :
    startsOnNewLine p = true ↔ (¬ ClaimBeginsDot p ∧ ClaimMultiline p) := by
  simp only [startsOnNewLine, Bool.and_eq_true, Bool.not_eq_true']
  rw [← isMultiline_iff, ← hasLeadingTextDot_iff]
  constructor
  · intro ⟨h1, h2⟩
    exact ⟨by simp [h1], h2⟩
  · intro ⟨h1, h2⟩
    refine ⟨?_, h2⟩
    cases hx : hasLeadingTextDot p
    · rfl
    · exact absurd hx h1

/-- Claim C4: for every pattern, the serializer renders it starting on a new
indented line rather than inline after the `=` — it first emits a newline
and raises the indentation level, rendering the elements from that state —
if and only if the pattern does not begin with a plain-text element whose
content starts with `.` and the pattern is multiline (some text element
contains an embedded newline, or some placeable's expression is, possibly
through nested inline placeable wrapping, a select expression); in every
other case the pattern is emitted inline preceded by exactly one space.
Stated for any writer whose buffer does not currently end in a newline or
carriage return (the state after `id =` or `.attr =`). -/
theorem c4_pattern_layout (w : TextWriter) (p : Pattern)
    (hn : endsWithChar w.buffer '\n' = false)
    (hr : endsWithChar w.buffer '\r' = false) :
    (startsOnNewLine p = true ↔ (¬ ClaimBeginsDot p ∧ ClaimMultiline p)) ∧
      ((¬ ClaimBeginsDot p ∧ ClaimMultiline p) →
        serializePattern w p =
          (serializeElementList ⟨w.buffer ++ ['\n'], w.indentLevel + 1⟩ p.elements).dedent ∧
        ∃ t, (serializePattern w p).buffer = w.buffer ++ '\n' :: t) ∧
      (¬ (¬ ClaimBeginsDot p ∧ ClaimMultiline p) →
        serializePattern w p =
          serializeElementList ⟨w.buffer ++ [' '], w.indentLevel⟩ p.elements ∧
        ∃ t, (serializePattern w p).buffer = w.buffer ++ ' ' :: t) := by
  refine ⟨startsOnNewLine_iff p, ?_, ?_⟩
  · intro hcond
    have hs : startsOnNewLine p = true := (startsOnNewLine_iff p).mpr hcond
    obtain ⟨elements⟩ := p
    have heq : serializePattern w ⟨elements⟩ =
        (serializeElementList ⟨w.buffer ++ ['\n'], w.indentLevel + 1⟩ elements).dedent := by
      rw [serializePattern, if_pos hs, newline_of_not_cr (by simp [hr])]
      rfl
    refine ⟨heq, ?_⟩
    obtain ⟨t, ht⟩ :=
      serializeElementList_extends (⟨w.buffer ++ ['\n'], w.indentLevel + 1⟩ : TextWriter)
        elements
    refine ⟨t, ?_⟩
    rw [heq, dedent_buffer, ht]
    simp
  · intro hcond
    have hs : startsOnNewLine p = false := by
      cases hx : startsOnNewLine p
      · rfl
      · exact absurd ((startsOnNewLine_iff p).mp hx) hcond
    obtain ⟨elements⟩ := p
    have heq : serializePattern w ⟨elements⟩ =
        serializeElementList ⟨w.buffer ++ [' '], w.indentLevel⟩ elements := by
      rw [serializePattern, if_neg (by simp [hs]), writeLiteral_of_not_newline (by simp [hn])]
    refine ⟨heq, ?_⟩
    obtain ⟨t, ht⟩ :=
      serializeElementList_extends (⟨w.buffer ++ [' '], w.indentLevel⟩ : TextWriter) elements
    refine ⟨t, ?_⟩
    rw [heq, ht]
    simp

/-- Witness for C4 at a concrete writer (buffer `m =`, level 0) and the
single-line pattern `hi`, discharging both buffer hypotheses. -/
theorem c4_pattern_layout_witness :
    (endsWithChar ['m', ' ', '='] '\n' = false) ∧
      (endsWithChar ['m', ' ', '='] '\r' = false) ∧
      ((startsOnNewLine ⟨[.textElement ['h', 'i']]⟩ = true ↔
          (¬ ClaimBeginsDot ⟨[.textElement ['h', 'i']]⟩ ∧
            ClaimMultiline ⟨[.textElement ['h', 'i']]⟩)) ∧
        ((¬ ClaimBeginsDot ⟨[.textElement ['h', 'i']]⟩ ∧
            ClaimMultiline ⟨[.textElement ['h', 'i']]⟩) →
          serializePattern ⟨['m', ' ', '='], 0⟩ ⟨[.textElement ['h', 'i']]⟩ =
            (serializeElementList ⟨['m', ' ', '='] ++ ['\n'], 0 + 1⟩
              [.textElement ['h', 'i']]).dedent ∧
          ∃ t, (serializePattern ⟨['m', ' ', '='], 0⟩ ⟨[.textElement ['h', 'i']]⟩).buffer =
            ['m', ' ', '='] ++ '\n' :: t) ∧
        (¬ (¬ ClaimBeginsDot ⟨[.textElement ['h', 'i']]⟩ ∧
            ClaimMultiline ⟨[.textElement ['h', 'i']]⟩) →
          serializePattern ⟨['m', ' ', '='], 0⟩ ⟨[.textElement ['h', 'i']]⟩ =
            serializeElementList ⟨['m', ' ', '='] ++ [' '], 0⟩ [.textElement ['h', 'i']] ∧
          ∃ t, (serializePattern ⟨['m', ' ', '='], 0⟩ ⟨[.textElement ['h', 'i']]⟩).buffer =
            ['m', ' ', '='] ++ ' ' :: t)) :=
  ⟨by decide, by decide,
    c4_pattern_layout ⟨['m', ' ', '='], 0⟩ ⟨[.textElement ['h', 'i']]⟩ (by decide) (by decide)⟩

/-! ## Identifier construction (claim C6). -/

/-- Counterexample to C6 as stated: constructing an identifier from the
empty string does not fail — both `TryFrom` implementations succeed on
`""`, so no `InvalidIdentifier` rejection of empty strings exists. -/
theorem c6_counterexample :
    TUIdentifier.tryFrom [] = Except.ok ⟨[]⟩ ∧
      CIdentifier.tryFrom [] = Except.ok ⟨[]⟩ :=
  ⟨rfl, rfl⟩

/-- Amended C6: identifier construction from a string never fails —
`TryFrom` accepts every string, including the empty one, verbatim, and its
error type is uninhabited (the source only carries `TODO` comments for
validation). -/
theorem c6_amended :
    (∀ s : Str, TUIdentifier.tryFrom s = Except.ok ⟨s⟩) ∧
      (∀ s : Str, CIdentifier.tryFrom s = Except.ok ⟨s⟩) ∧
      (∀ e : Infallible, False) :=
  ⟨fun _ => rfl, fun _ => rfl, fun e => nomatch e⟩

/-! ## Bridge diagnostics (claim C8). -/

/-- Counterexample to C8 as stated: when the parser oracle reports the two
diagnostics `0` and `1`, the bridge's error carries only the first —
`errors.remove(0)` — not the full list. -/
theorem c8_counterexample :
    carriedDiagnostics
        (toFltResource ⟨['e', 'n'], []⟩ []
          (fun _ => Except.error (⟨[]⟩, 0, [1]))) = [0] ∧
      ([0] : List ParserError) ≠ [0, 1] :=
  ⟨rfl, by decide⟩

/-- Amended C8: whenever the synthesized source fails external parsing,
`to_flt_resource` fails carrying exactly the first diagnostic of the
parser's list, discarding the rest. -/
theorem c8_amended (tm : TranslationUnitMap) (descriptions : KeyedList Str)
    (parse : FluentParse) (r : Resource) (e : ParserError) (es : List ParserError)
    (h : parse (synthSource descriptions tm) = Except.error (r, e, es)) :
    toFltResource tm descriptions parse = Except.error e := by
  unfold toFltResource
  rw [h]

/-- Witness for C8's amended theorem at a concrete unit map and a parser
stub reporting diagnostics `0` and `1`. -/
theorem c8_amended_witness :
    ((fun _ => Except.error (⟨[]⟩, 0, [1]) : FluentParse)
        (synthSource [] ⟨['e', 'n'], []⟩) = Except.error (⟨[]⟩, 0, [1])) ∧
      toFltResource ⟨['e', 'n'], []⟩ [] (fun _ => Except.error (⟨[]⟩, 0, [1])) =
        Except.error 0 :=
  ⟨rfl, c8_amended ⟨['e', 'n'], []⟩ [] (fun _ => Except.error (⟨[]⟩, 0, [1])) ⟨[]⟩ 0 [1] rfl⟩

/-! ## Process termination in `generate` (claim C7). -/

/-- Claim C7 evaluated at its failing input: a project holding one unit
whose main text is a lone `{` synthesizes the source `m = {\n`, which the
Fluent grammar rejects; `generate` then reaches `std::process::exit(1)`
(the `processExit` outcome) instead of returning a typed error.  The
rejecting parser is passed as the oracle, reflecting the external parser's
diagnostic on that source. -/
theorem c7_generate_exits :
    generate
      ⟨['p'], none,
        [(['a', 'p', 'p'],
          ⟨['a', 'p', 'p'], ['A', 'p', 'p'], ['e', 'n'], [],
            [(['e', 'n'],
              ⟨['e', 'n'], [(['m'], ⟨['m'], ['\x7b'], []⟩)]⟩)]⟩)]⟩
      (fun _ => Except.error (⟨[]⟩, 0, [])) = GenerateOutcome.processExit 1 :=
  rfl

/-! ## Partiality of the tree→model conversion (claim C10). -/

theorem fromFltEntry_isSome (tm : TranslationUnitMap) (e : Entry)
    (h : match e with | .message m => m.value.isSome = true | _ => True) :
    (fromFltEntry tm e).isSome = true := by
  cases e with
  | message m =>
    have h' : m.value.isSome = true := h
    cases hv : m.value with
    | none => rw [hv] at h'; exact absurd h' (by simp)
    | some p => simp [fromFltEntry, hv]
  | term t => simp [fromFltEntry]
  | comment c => simp [fromFltEntry]
  | groupComment c => simp [fromFltEntry]
  | resourceComment c => simp [fromFltEntry]
  | junk s => simp [fromFltEntry]

theorem foldlM_fromFltEntry_isSome :
    ∀ (body : List Entry),
      (∀ e ∈ body, match e with | .message m => m.value.isSome = true | _ => True) →
      ∀ tm : TranslationUnitMap, (body.foldlM fromFltEntry tm).isSome = true := by
  intro body
  induction body with
  | nil => intro _ tm; simp
  | cons e rest ih =>
    intro h tm
    have h1 := fromFltEntry_isSome tm e (h e (List.mem_cons_self _ _))
    obtain ⟨tm', htm'⟩ := Option.isSome_iff_exists.mp h1
    simp only [List.foldlM_cons, htm', Option.bind_eq_bind, Option.some_bind]
    exact ih (fun e' he' => h e' (List.mem_cons_of_mem _ he')) tm'

/-- Claim C10: `from_flt_resource` is total exactly under the precondition
that every message entry carries a value pattern — when they all do, the
conversion succeeds, and for a parsed resource containing a message entry
with an attribute but no value (a shape the Fluent grammar permits), the
conversion hits the `x.value.as_ref().unwrap()` panic (the `none`
outcome) instead of returning a unit or an error. -/
theorem c10_value_unwrap :
    (∀ (loc : Str) (r : Resource), allMessagesHaveValue r = true →
        (fromFltResource loc r).isSome = true) ∧
      fromFltResource ['e', 'n']
        ⟨[.message ⟨['m'], none, [⟨['a'], ⟨[.textElement ['x']]⟩⟩], none⟩]⟩ = none := by
  constructor
  · intro loc r hall
    simp only [allMessagesHaveValue, List.all_eq_true] at hall
    apply foldlM_fromFltEntry_isSome
    intro e he
    have := hall e he
    cases e <;> simpa using this
  · rfl

/-- Witness for C10's first conjunct at a concrete resource whose single
message carries a value. -/
theorem c10_value_unwrap_witness :
    allMessagesHaveValue ⟨[.message ⟨['m'], some ⟨[.textElement ['x']]⟩, [], none⟩]⟩ = true ∧
      (fromFltResource ['e', 'n']
        ⟨[.message ⟨['m'], some ⟨[.textElement ['x']]⟩, [], none⟩]⟩).isSome = true :=
  ⟨by decide,
    c10_value_unwrap.1 ['e', 'n']
      ⟨[.message ⟨['m'], some ⟨[.textElement ['x']]⟩, [], none⟩]⟩ (by decide)⟩

/-! ## The default-locale invariant (claim C5). -/

theorem fromFltEntry_locale (tm : TranslationUnitMap) (e : Entry) (tm' : TranslationUnitMap)
    (h : fromFltEntry tm e = some tm') : tm'.locale = tm.locale := by
  cases e with
  | message m =>
    cases hv : m.value with
    | none => simp [fromFltEntry, hv] at h
    | some p =>
      simp only [fromFltEntry, hv, Option.some.injEq] at h
      subst h
      rfl
  | term t =>
    simp only [fromFltEntry, Option.some.injEq] at h
    subst h
    rfl
  | comment c =>
    simp only [fromFltEntry, Option.some.injEq] at h
    subst h
    rfl
  | groupComment c =>
    simp only [fromFltEntry, Option.some.injEq] at h
    subst h
    rfl
  | resourceComment c =>
    simp only [fromFltEntry, Option.some.injEq] at h
    subst h
    rfl
  | junk s =>
    simp only [fromFltEntry, Option.some.injEq] at h
    subst h
    rfl

theorem foldlM_fromFltEntry_locale :
    ∀ (body : List Entry) (tm0 tm : TranslationUnitMap),
      body.foldlM fromFltEntry tm0 = some tm → tm.locale = tm0.locale := by
  intro body
  induction body with
  | nil =>
    intro tm0 tm h
    simp only [List.foldlM_nil, pure, Option.some.injEq] at h
    subst h
    rfl
  | cons e rest ih =>
    intro tm0 tm h
    cases he : fromFltEntry tm0 e with
    | none => simp [List.foldlM_cons, he] at h
    | some tm1 =>
      simp only [List.foldlM_cons, he, Option.bind_eq_bind, Option.some_bind] at h
      rw [ih tm1 tm h, fromFltEntry_locale tm0 e tm1 he]

theorem fromFltResource_locale (loc : Str) (r : Resource) (tm : TranslationUnitMap)
    (h : fromFltResource loc r = some tm) : tm.locale = loc :=
  foldlM_fromFltEntry_locale r.body (TranslationUnitMap.new loc) tm h

theorem isSome_lookup_insert (k k' : Str) (v : α) (l : KeyedList α) :
    (lookupKeyed k (insertKeyed k' v l)).isSome =
      (decide (k = k') || (lookupKeyed k l).isSome) := by
  by_cases he : k = k'
  · subst he
    simp [lookup_insert_self]
  · simp [lookup_insert_ne he, he]

theorem isSome_lookup_update (k k' : Str) (f : α → α) (l : KeyedList α) :
    (lookupKeyed k (updateKeyed k' f l)).isSome = (lookupKeyed k l).isSome := by
  by_cases he : k = k'
  · subst he
    simp [lookup_update_self]
  · simp [lookup_update_ne he]

theorem insert_isSome_mono {k : Str} {l : KeyedList α} (k' : Str) (v : α)
    (h : (lookupKeyed k l).isSome = true) :
    (lookupKeyed k (insertKeyed k' v l)).isSome = true := by
  rw [isSome_lookup_insert, h, Bool.or_true]

theorem loadCategory_fold :
    ∀ (files : List (Str × Resource)) (cat0 cat : Category),
      files.foldlM loadCategoryStep cat0 = some cat →
      cat.default_locale = cat0.default_locale ∧
        ∀ k, (lookupKeyed k cat.translation_units).isSome = true ↔
          (k ∈ files.map Prod.fst ∨
            (lookupKeyed k cat0.translation_units).isSome = true) := by
  intro files
  induction files with
  | nil =>
    intro cat0 cat h
    simp only [List.foldlM_nil, pure, Option.some.injEq] at h
    subst h
    exact ⟨rfl, fun k => by simp⟩
  | cons kv rest ih =>
    intro cat0 cat h
    obtain ⟨loc, res⟩ := kv
    cases hs : loadCategoryStep cat0 (loc, res) with
    | none => simp [List.foldlM_cons, hs] at h
    | some cat1 =>
      simp only [List.foldlM_cons, hs, Option.bind_eq_bind, Option.some_bind] at h
      obtain ⟨hdef, hlook⟩ := ih cat1 cat h
      cases hf : fromFltResource loc res with
      | none => simp [loadCategoryStep, hf] at hs
      | some tum =>
        simp only [loadCategoryStep, hf, Option.bind_eq_bind, Option.some_bind, pure,
          Option.some.injEq] at hs
        have hloc : tum.locale = loc := fromFltResource_locale loc res tum hf
        subst hs
        refine ⟨hdef, fun k => ?_⟩
        rw [hlook k]
        simp only [isSome_lookup_insert, hloc, List.map_cons, List.mem_cons,
          Bool.or_eq_true, decide_eq_true_eq]
        constructor
        · rintro (hm | hor)
          · exact Or.inl (Or.inr hm)
          · rcases hor with he | hl
            · exact Or.inl (Or.inl he)
            · exact Or.inr hl
        · rintro (he | hl)
          · rcases he with he | hm
            · exact Or.inr (Or.inl he)
            · exact Or.inl hm
          · exact Or.inr (Or.inr hl)

theorem xlsxRowCol_keys {id : Str} {meta : Option Str} {row : Row}
    {l l' : KeyedList TranslationUnitMap} {col : Nat × Str}
    (h : xlsxRowCol id meta row l col = some l') :
    ∀ k, (lookupKeyed k l').isSome = (lookupKeyed k l).isSome := by
  intro k
  unfold xlsxRowCol at h
  cases hg : row.get? col.1 with
  | none => simp only [hg] at h; exact absurd h (by simp)
  | some cell =>
    simp only [hg] at h
    cases hc : cellNonEmpty cell with
    | none =>
      simp only [hc] at h
      simp only [Option.some.injEq] at h
      subst h
      rfl
    | some col_str =>
      simp only [hc] at h
      cases meta with
      | some m =>
        cases hl : lookupKeyed col.2 l with
        | none => simp only [hl] at h; exact absurd h (by simp)
        | some tum =>
          simp only [hl] at h
          cases hu : lookupKeyed id tum.translation_units with
          | none =>
            simp only [hu] at h
            simp only [Option.some.injEq] at h
            subst h
            rfl
          | some u =>
            simp only [hu] at h
            simp only [Option.some.injEq] at h
            subst h
            exact isSome_lookup_update k col.2 _ l
      | none =>
        cases hl : lookupKeyed col.2 l with
        | none => simp only [hl] at h; exact absurd h (by simp)
        | some tum =>
          simp only [hl] at h
          simp only [Option.some.injEq] at h
          subst h
          exact isSome_lookup_update k col.2 _ l

theorem foldlM_xlsxRowCol_keys {id : Str} {meta : Option Str} {row : Row} :
    ∀ (cols : List (Nat × Str)) (l l' : KeyedList TranslationUnitMap),
      cols.foldlM (xlsxRowCol id meta row) l = some l' →
      ∀ k, (lookupKeyed k l').isSome = (lookupKeyed k l).isSome := by
  intro cols
  induction cols with
  | nil =>
    intro l l' h k
    simp only [List.foldlM_nil, pure, Option.some.injEq] at h
    subst h
    rfl
  | cons col rest ih =>
    intro l l' h k
    cases hs : xlsxRowCol id meta row l col with
    | none => simp [List.foldlM_cons, hs] at h
    | some l1 =>
      simp only [List.foldlM_cons, hs, Option.bind_eq_bind, Option.some_bind] at h
      rw [ih l1 l' h k, xlsxRowCol_keys hs k]

theorem xlsxRow_keys {idIdx baseIdx : Nat} {cols : List (Nat × Str)} {row : Row}
    {l l' : KeyedList TranslationUnitMap}
    (h : xlsxRow idIdx baseIdx cols l row = some l') :
    ∀ k, (lookupKeyed k l').isSome = (lookupKeyed k l).isSome := by
  intro k
  unfold xlsxRow at h
  cases hg : row.get? idIdx with
  | none => simp only [hg] at h; exact absurd h (by simp)
  | some idCell =>
    simp only [hg] at h
    cases idCell with
    | none =>
      simp only [Option.some.injEq] at h
      subst h
      rfl
    | some idStr =>
      cases hsp : splitOnSub ('_' :: ['_']) idStr with
      | nil => simp only [hsp] at h; exact absurd h (by simp)
      | cons id metaRest =>
        simp only [hsp] at h
        cases hb : row.get? baseIdx with
        | none => simp only [hb] at h; exact absurd h (by simp)
        | some baseCell =>
          simp only [hb] at h
          cases baseCell with
          | none =>
            simp only [Option.some.injEq] at h
            subst h
            rfl
          | some bs => exact foldlM_xlsxRowCol_keys cols l l' h k

theorem foldlM_xlsxRow_keys {idIdx baseIdx : Nat} {cols : List (Nat × Str)} :
    ∀ (rows : List Row) (l l' : KeyedList TranslationUnitMap),
      rows.foldlM (xlsxRow idIdx baseIdx cols) l = some l' →
      ∀ k, (lookupKeyed k l').isSome = (lookupKeyed k l).isSome := by
  intro rows
  induction rows with
  | nil =>
    intro l l' h k
    simp only [List.foldlM_nil, pure, Option.some.injEq] at h
    subst h
    rfl
  | cons row rest ih =>
    intro l l' h k
    cases hs : xlsxRow idIdx baseIdx cols l row with
    | none => simp [List.foldlM_cons, hs] at h
    | some l1 =>
      simp only [List.foldlM_cons, hs, Option.bind_eq_bind, Option.some_bind] at h
      rw [ih l1 l' h k, xlsxRow_keys hs k]

theorem foldl_insert_lang_mono {k : Str} :
    ∀ (cols : List (Nat × Str)) (m : KeyedList TranslationUnitMap),
      (lookupKeyed k m).isSome = true →
      (lookupKeyed k
        (cols.foldl (fun m col => insertKeyed col.2 ⟨col.2, []⟩ m) m)).isSome = true := by
  intro cols
  induction cols with
  | nil => intro m h; exact h
  | cons col rest ih =>
    intro m h
    exact ih _ (insert_isSome_mono col.2 _ h)

theorem parseXlsxSheet_base {snake : Str → Str} {sheet : Sheet} {cat : Category}
    (h : parseXlsxSheet snake sheet = some (some cat)) :
    (Category.baseStringsOpt cat).isSome = true := by
  unfold parseXlsxSheet at h
  cases hr : sheet.rows with
  | nil => simp only [hr] at h; exact absurd h (by simp)
  | cons headers rows =>
    simp only [hr] at h
    cases hi : headers.findIdx? (fun cell => cell = some "Identifier".data) with
    | none =>
      simp only [hi] at h
      simp only [Option.some.injEq] at h
      exact absurd h (by simp)
    | some idIdx =>
      simp only [hi] at h
      cases hcols : headers.enum.filterMap
          (fun ic => (cellLangCode ic.2).map fun code => (ic.1, code)) with
      | nil =>
        simp only [hcols] at h
        simp only [Option.some.injEq] at h
        exact absurd h (by simp)
      | cons bc restCols =>
        simp only [hcols] at h
        obtain ⟨baseIdx, baseCode⟩ := bc
        cases hfold : rows.foldlM
            (xlsxRow idIdx baseIdx ((baseIdx, baseCode) :: restCols))
            (((baseIdx, baseCode) :: restCols).foldl
              (fun m col => insertKeyed col.2 ⟨col.2, []⟩ m) []) with
        | none => simp only [hfold] at h; exact absurd h (by simp)
        | some languages =>
          simp only [hfold] at h
          simp only [Option.some.injEq] at h
          obtain rfl : cat = _ := h.symm
          show (lookupKeyed baseCode languages).isSome = true
          rw [foldlM_xlsxRow_keys rows _ languages hfold baseCode]
          exact foldl_insert_lang_mono restCols _
            (by rw [isSome_lookup_insert]; simp)

theorem mem_insertKeyed {p : Str × α} {k : Str} {v : α} :
    ∀ {l : KeyedList α}, p ∈ insertKeyed k v l → p = (k, v) ∨ p ∈ l := by
  intro l
  induction l with
  | nil => intro h; simpa [insertKeyed] using h
  | cons q rest ih =>
    intro h
    obtain ⟨qk, qv⟩ := q
    rw [insertKeyed] at h
    split at h
    · rcases List.mem_cons.mp h with h | h
      · exact Or.inl h
      · exact Or.inr h
    · split at h
      · rcases List.mem_cons.mp h with h | h
        · exact Or.inl h
        · exact Or.inr (List.mem_cons_of_mem _ h)
      · rcases List.mem_cons.mp h with h | h
        · exact Or.inr (by simp [h])
        · rcases ih h with h | h
          · exact Or.inl h
          · exact Or.inr (List.mem_cons_of_mem _ h)

theorem parseXlsx_fold_base {snake : Str → Str} :
    ∀ (sheets : List Sheet) (cats0 cats : KeyedList Category),
      (∀ kc ∈ cats0, (Category.baseStringsOpt kc.2).isSome = true) →
      sheets.foldlM (parseXlsxStep snake) cats0 = some cats →
      ∀ kc ∈ cats, (Category.baseStringsOpt kc.2).isSome = true := by
  intro sheets
  induction sheets with
  | nil =>
    intro cats0 cats h0 h
    simp only [List.foldlM_nil, pure, Option.some.injEq] at h
    subst h
    exact h0
  | cons sheet rest ih =>
    intro cats0 cats h0 h
    cases hs : parseXlsxStep snake cats0 sheet with
    | none => simp [List.foldlM_cons, hs] at h
    | some cats1 =>
      simp only [List.foldlM_cons, hs, Option.bind_eq_bind, Option.some_bind] at h
      refine ih cats1 cats ?_ h
      unfold parseXlsxStep at hs
      cases hp : parseXlsxSheet snake sheet with
      | none => rw [hp] at hs; exact absurd hs (by simp)
      | some oc =>
        rw [hp] at hs
        cases oc with
        | none =>
          simp only [Option.some.injEq] at hs
          subst hs
          exact h0
        | some cat =>
          simp only [Option.some.injEq] at hs
          subst hs
          intro kc hkc
          rcases mem_insertKeyed hkc with he | hm
          · subst he
            exact parseXlsxSheet_base hp
          · exact h0 kc hm

/-- Counterexample to C5 as stated: `load_project_from_path` performs no
`MissingDefaultLocale` check.  Loading a configuration whose category `app`
declares default locale `en` from a directory with no `.flt` files succeeds
and produces a Category on which `base_strings()`'s lookup is `none` — the
unwrap panic is reachable through this public construction path. -/
theorem c5_counterexample :
    (loadProjectFromPath
        ⟨['p'], none, [(['a', 'p', 'p'], ⟨['A', 'p', 'p'], ['e', 'n']⟩)]⟩
        (fun _ => [])).map
        (fun proj => (lookupKeyed ['a', 'p', 'p'] proj.categories).map
          Category.baseStringsOpt) =
      some (some none) :=
  rfl

/-- Amended C5: for every Category constructed by the spreadsheet importer,
`base_strings()` never fails (the base language column's unit map is always
present); for a Category constructed by `load_project_from_path`,
`base_strings()` succeeds exactly when the category's directory contained an
`.flt` file for the declared default locale — no `MissingDefaultLocale`
check exists at construction. -/
theorem c5_amended :
    (∀ (snake : Str → Str) (sheets : List Sheet) (proj : Project),
        parseXlsx snake sheets = some proj →
        ∀ kc ∈ proj.categories, (Category.baseStringsOpt kc.2).isSome = true) ∧
      (∀ (cid : Str) (ccfg : CategoryConfig) (files : List (Str × Resource))
          (cat : Category), loadCategory cid ccfg files = some cat →
        ((Category.baseStringsOpt cat).isSome = true ↔
          ccfg.default_locale ∈ files.map Prod.fst)) := by
  constructor
  · intro snake sheets proj h
    unfold parseXlsx at h
    rw [Option.map_eq_some'] at h
    obtain ⟨cats, hcats, hproj⟩ := h
    subst hproj
    exact parseXlsx_fold_base _ [] cats (by intro kc h; cases h) hcats
  · intro cid ccfg files cat h
    unfold loadCategory at h
    obtain ⟨hdef, hlook⟩ := loadCategory_fold files _ cat h
    unfold Category.baseStringsOpt
    rw [hdef]
    constructor
    · intro hs
      rcases (hlook ccfg.default_locale).mp hs with hm | hl
      · exact hm
      · simp [lookupKeyed] at hl
    · intro hm
      exact (hlook ccfg.default_locale).mpr (Or.inl hm)

/-- Witness for C5's amended theorem: a one-sheet workbook with an
`Identifier` column and an `(en)` base column, and a loaded category whose
directory held exactly `en.flt`. -/
theorem c5_amended_witness :
    ((Category.baseStringsOpt
        ⟨['S'], ['S'], ['e', 'n'], [], [(['e', 'n'], ⟨['e', 'n'], []⟩)]⟩).isSome = true) ∧
      ((Category.baseStringsOpt
          ⟨['a', 'p', 'p'], ['A', 'p', 'p'], ['e', 'n'], [],
            [(['e', 'n'], ⟨['e', 'n'], []⟩)]⟩).isSome = true ↔
        ['e', 'n'] ∈ [['e', 'n']]) := by
  constructor
  · exact c5_amended.1 (fun s => s)
      [⟨['S'], [[some "Identifier".data, some "(en)".data]]⟩]
      ⟨"Untitled".data, none,
        [(['S'], ⟨['S'], ['S'], ['e', 'n'], [], [(['e', 'n'], ⟨['e', 'n'], []⟩)]⟩)]⟩
      (by rfl)
      (['S'], ⟨['S'], ['S'], ['e', 'n'], [], [(['e', 'n'], ⟨['e', 'n'], []⟩)]⟩)
      (by decide)
  · exact c5_amended.2 ['a', 'p', 'p'] ⟨['A', 'p', 'p'], ['e', 'n']⟩
      [(['e', 'n'], ⟨[]⟩)]
      ⟨['a', 'p', 'p'], ['A', 'p', 'p'], ['e', 'n'], [],
        [(['e', 'n'], ⟨['e', 'n'], []⟩)]⟩
      (by rfl)

/-! ## Round-trip fidelity of the bridge (claim C1). -/

/-- The pattern-only serializer entry point always prefixes its output: a
space in the inline layout, a newline in the block layout.  No recovered
text can therefore equal a raw text that starts with any other character. -/
theorem serializePatternText_head (p : Pattern) :
    ∃ t, serializePatternText p = ' ' :: t ∨ serializePatternText p = '\n' :: t := by
  unfold serializePatternText
  obtain ⟨elements⟩ := p
  rw [serializePattern]
  split
  · rw [newline_of_not_cr (by decide)]
    obtain ⟨t, ht⟩ :=
      serializeElementList_extends
        (TextWriter.indent { buffer := [] ++ ['\n'], indentLevel := 0 }) elements
    exact ⟨t, Or.inr (by rw [dedent_buffer, ht]; rfl)⟩
  · rw [writeLiteral_of_not_newline (by decide)]
    obtain ⟨t, ht⟩ :=
      serializeElementList_extends
        ({ buffer := [] ++ [' '], indentLevel := 0 } : TextWriter) elements
    exact ⟨t, Or.inl (by rw [ht]; rfl)⟩

theorem fromFltEntry_unit_mains (tm : TranslationUnitMap) (e : Entry)
    (tm2 : TranslationUnitMap) (h : fromFltEntry tm e = some tm2) :
    ∀ kv ∈ tm2.translation_units,
      kv ∈ tm.translation_units ∨ ∃ p : Pattern, kv.2.main = serializePatternText p := by
  intro kv hkv
  cases e with
  | message m =>
    cases hv : m.value with
    | none => simp [fromFltEntry, hv] at h
    | some p =>
      simp only [fromFltEntry, hv, Option.some.injEq] at h
      subst h
      rcases mem_insertKeyed hkv with he | hm
      · subst he
        exact Or.inr ⟨p, rfl⟩
      · exact Or.inl hm
  | term t =>
    simp only [fromFltEntry, Option.some.injEq] at h
    subst h
    rcases mem_insertKeyed hkv with he | hm
    · subst he
      exact Or.inr ⟨t.value, rfl⟩
    · exact Or.inl hm
  | comment c =>
    simp only [fromFltEntry, Option.some.injEq] at h
    subst h
    exact Or.inl hkv
  | groupComment c =>
    simp only [fromFltEntry, Option.some.injEq] at h
    subst h
    exact Or.inl hkv
  | resourceComment c =>
    simp only [fromFltEntry, Option.some.injEq] at h
    subst h
    exact Or.inl hkv
  | junk s =>
    simp only [fromFltEntry, Option.some.injEq] at h
    subst h
    exact Or.inl hkv

theorem fromFltResource_unit_mains :
    ∀ (body : List Entry) (tm0 tm : TranslationUnitMap),
      body.foldlM fromFltEntry tm0 = some tm →
      ∀ kv ∈ tm.translation_units,
        kv ∈ tm0.translation_units ∨ ∃ p : Pattern, kv.2.main = serializePatternText p := by
  intro body
  induction body with
  | nil =>
    intro tm0 tm h kv hkv
    simp only [List.foldlM_nil, pure, Option.some.injEq] at h
    subst h
    exact Or.inl hkv
  | cons e rest ih =>
    intro tm0 tm h kv hkv
    cases he : fromFltEntry tm0 e with
    | none => simp [List.foldlM_cons, he] at h
    | some tm1 =>
      simp only [List.foldlM_cons, he, Option.bind_eq_bind, Option.some_bind] at h
      rcases ih tm1 tm h kv hkv with hm | hp
      · exact fromFltEntry_unit_mains tm0 e tm1 he kv hm
      · exact Or.inr hp

/-- Counterexample to C1 as stated: no parser oracle under which the
model→tree path succeeds on the unit `greeting = Hello` can make the
tree→model path recover the original text — whatever resource parsing
returns, every recovered main text is the serializer pattern rendering,
which starts with a space (inline) or a newline (block), so it never equals
`Hello`.  The real parser does succeed on the synthesized source for this
unit, so the round trip genuinely loses exactness. -/
theorem c1_counterexample :
    ¬ ∃ parse : FluentParse,
        (∃ r, toFltResource
            ⟨['e', 'n'],
              [(['g'], ⟨['g'], ['H', 'e', 'l', 'l', 'o'], []⟩)]⟩ [] parse = Except.ok r) ∧
          RoundTripFaithful parse := by
  rintro ⟨parse, ⟨r, hok⟩, hrt⟩
  have hclean :
      tmClean ⟨['e', 'n'], [(['g'], ⟨['g'], ['H', 'e', 'l', 'l', 'o'], []⟩)]⟩ = true := by
    decide
  have hback := hrt _ hclean r hok
  have hmem : ((['g'], ⟨['g'], ['H', 'e', 'l', 'l', 'o'], []⟩) :
      Str × TranslationUnit) ∈
      (⟨['e', 'n'], [(['g'], ⟨['g'], ['H', 'e', 'l', 'l', 'o'], []⟩)]⟩ :
        TranslationUnitMap).translation_units :=
    List.mem_singleton.mpr rfl
  rcases fromFltResource_unit_mains r.body _ _ hback _ hmem with hin | ⟨p, hp⟩
  · simp [TranslationUnitMap.new] at hin
  · obtain ⟨t, ht | ht⟩ := serializePatternText_head p <;> rw [ht] at hp <;>
      exact absurd hp (by simp)

theorem no_newline_of_cleanText {s : Str} (h : cleanText s = true) :
    ('\n' : Char) ∉ s := by
  simp only [cleanText, Bool.and_eq_true, List.all_eq_true] at h
  intro hm
  have h2 := h.1.1.2 _ hm
  simp at h2

theorem contains_eq_false_of_not_mem {c : Char} :
    ∀ {s : Str}, c ∉ s → s.contains c = false := by
  intro s
  induction s with
  | nil => intro _; rfl
  | cons x rest ih =>
    intro h
    have hx : c ≠ x := fun he => h (he ▸ List.mem_cons_self x rest)
    have hr : c ∉ rest := fun hm => h (List.mem_cons_of_mem x hm)
    simp [hx, hr]

theorem serializePatternText_single (s : Str) (hnl : ('\n' : Char) ∉ s) :
    serializePatternText ⟨[.textElement s]⟩ = ' ' :: s := by
  have him : isMultiline ⟨[.textElement s]⟩ = false := by
    simp [isMultiline, hnl]
  have hms : startsOnNewLine ⟨[.textElement s]⟩ = false := by
    simp [startsOnNewLine, him]
  unfold serializePatternText
  rw [serializePattern, if_neg (by simp [hms])]
  rw [writeLiteral_of_not_newline (by decide)]
  simp only [serializeElementList, serializeElement]
  rw [writeLiteral_of_not_newline (by decide)]
  rfl

theorem fromFlt_expected_fold :
    ∀ (units : KeyedList TranslationUnit) (loc : Str) (acc : KeyedList TranslationUnit),
      ((units.map fun kv =>
          Entry.message
            { id := kv.1
              value := some ⟨[.textElement kv.2.main]⟩
              attributes := kv.2.attributes.map fun av => ⟨av.1, ⟨[.textElement av.2]⟩⟩
              comment := none }).foldlM fromFltEntry
        (⟨loc, acc⟩ : TranslationUnitMap)) =
      some ⟨loc, units.foldl
        (fun m kv =>
          insertKeyed kv.1
            (⟨kv.1, serializePatternText ⟨[.textElement kv.2.main]⟩,
              (kv.2.attributes.map fun av =>
                  (⟨av.1, ⟨[.textElement av.2]⟩⟩ : FAttribute)).foldl
                (fun m a => insertKeyed a.id (serializePatternText a.value) m) []⟩ :
              TranslationUnit) m) acc⟩ := by
  intro units
  induction units with
  | nil => intro loc acc; simp
  | cons kv rest ih =>
    intro loc acc
    simp only [List.map_cons, List.foldlM_cons, List.foldl_cons]
    have hstep : fromFltEntry (⟨loc, acc⟩ : TranslationUnitMap)
        (Entry.message
          { id := kv.1
            value := some ⟨[.textElement kv.2.main]⟩
            attributes := kv.2.attributes.map fun av => ⟨av.1, ⟨[.textElement av.2]⟩⟩
            comment := none }) =
        some ⟨loc, insertKeyed kv.1
          (⟨kv.1, serializePatternText ⟨[.textElement kv.2.main]⟩,
            (kv.2.attributes.map fun av =>
                (⟨av.1, ⟨[.textElement av.2]⟩⟩ : FAttribute)).foldl
              (fun m a => insertKeyed a.id (serializePatternText a.value) m) []⟩ :
            TranslationUnit) acc⟩ := rfl
    rw [hstep]
    simp only [Option.bind_eq_bind, Option.some_bind]
    exact ih loc _

/-- Amended C1: given the external parser's documented behavior on the
synthesized source, the tree→model path recovers each text with exactly one
leading space prepended rather than the original text.  For every unit map
whose texts are single-line, trimmed and free of the reserved and brace
characters (so the escaping pass is inert), and any parser oracle that
parses the synthesized source into the expected one-message-per-unit
resource, `to_flt_resource` succeeds with that resource and
`from_flt_resource` of it yields the original map with every main and
attribute text prefixed by one space. -/
theorem c1_amended (tm : TranslationUnitMap) (parse : FluentParse)
    (hwf : tmClean tm = true)
    (hparse : parse (synthSource [] tm) = Except.ok (expectedResource tm)) :
    toFltResource tm [] parse = Except.ok (expectedResource tm) ∧
      fromFltResource tm.locale (expectedResource tm) = some (withLeadingSpaces tm) := by
  simp only [tmClean, Bool.and_eq_true, List.all_eq_true, decide_eq_true_eq] at hwf
  obtain ⟨hsort, hall⟩ := hwf
  constructor
  · unfold toFltResource
    rw [hparse]
  · unfold fromFltResource expectedResource
    rw [show TranslationUnitMap.new tm.locale = (⟨tm.locale, []⟩ : TranslationUnitMap)
      from rfl]
    rw [fromFlt_expected_fold]
    have keyU := fold_insert_sorted
      (fun k (u : TranslationUnit) =>
        (⟨k, serializePatternText ⟨[.textElement u.main]⟩,
          (u.attributes.map fun av =>
              (⟨av.1, ⟨[.textElement av.2]⟩⟩ : FAttribute)).foldl
            (fun m a => insertKeyed a.id (serializePatternText a.value) m) []⟩ :
          TranslationUnit))
      tm.translation_units [] (fun p hp => absurd hp (List.not_mem_nil p)) hsort
    simp only [List.nil_append] at keyU
    unfold withLeadingSpaces
    simp only [Option.some.injEq, TranslationUnitMap.mk.injEq]
    refine ⟨trivial, Eq.trans keyU (List.map_congr_left ?_)⟩
    intro kv hkv
    obtain ⟨⟨⟨hkey, hmain⟩, hasort⟩, hacln⟩ := hall kv hkv
    have hnl : ('\n' : Char) ∉ kv.2.main := no_newline_of_cleanText hmain
    have hattr : (kv.2.attributes.map fun av =>
          (⟨av.1, ⟨[.textElement av.2]⟩⟩ : FAttribute)).foldl
        (fun m a => insertKeyed a.id (serializePatternText a.value) m) [] =
        kv.2.attributes.map fun av => (av.1, ' ' :: av.2) := by
      rw [List.foldl_map]
      have key3 := fold_insert_sorted
        (fun _ (v : Str) => serializePatternText ⟨[.textElement v]⟩)
        kv.2.attributes [] (fun p hp => absurd hp (List.not_mem_nil p)) hasort
      simp only [List.nil_append] at key3
      refine Eq.trans key3 (List.map_congr_left ?_)
      intro av hav
      have hnl2 : ('\n' : Char) ∉ av.2 := no_newline_of_cleanText (hacln av hav)
      rw [Prod.mk.injEq]
      exact ⟨rfl, serializePatternText_single _ hnl2⟩
    rw [Prod.mk.injEq]
    refine ⟨rfl, ?_⟩
    rw [TranslationUnit.mk.injEq]
    exact ⟨hkey, serializePatternText_single _ hnl, hattr⟩

/-- Witness for C1's amended theorem: the clean unit map `g = Hi` against a
parser stub returning exactly the expected resource. -/
theorem c1_amended_witness :
    tmClean (⟨['e', 'n'], [(['g'], ⟨['g'], ['H', 'i'], []⟩)]⟩ : TranslationUnitMap) = true ∧
      toFltResource ⟨['e', 'n'], [(['g'], ⟨['g'], ['H', 'i'], []⟩)]⟩ []
          (fun _ => Except.ok
            (expectedResource ⟨['e', 'n'], [(['g'], ⟨['g'], ['H', 'i'], []⟩)]⟩)) =
        Except.ok (expectedResource ⟨['e', 'n'], [(['g'], ⟨['g'], ['H', 'i'], []⟩)]⟩) ∧
      fromFltResource ['e', 'n']
          (expectedResource ⟨['e', 'n'], [(['g'], ⟨['g'], ['H', 'i'], []⟩)]⟩) =
        some (withLeadingSpaces ⟨['e', 'n'], [(['g'], ⟨['g'], ['H', 'i'], []⟩)]⟩) := by
  refine ⟨by decide, ?_, ?_⟩
  · exact (c1_amended ⟨['e', 'n'], [(['g'], ⟨['g'], ['H', 'i'], []⟩)]⟩
      (fun _ => Except.ok
        (expectedResource ⟨['e', 'n'], [(['g'], ⟨['g'], ['H', 'i'], []⟩)]⟩))
      (by decide) rfl).1
  · exact (c1_amended ⟨['e', 'n'], [(['g'], ⟨['g'], ['H', 'i'], []⟩)]⟩
      (fun _ => Except.ok
        (expectedResource ⟨['e', 'n'], [(['g'], ⟨['g'], ['H', 'i'], []⟩)]⟩))
      (by decide) rfl).2

/-! ## C3: the placeholder guard round trip. -/

theorem cons_isPrefixOf_cons (a b : Char) (as bs : Str) :
    (a :: as).isPrefixOf (b :: bs) = (a == b && as.isPrefixOf bs) := rfl

theorem isPrefixOf_cons_ne {a b : Char} (h : b ≠ a) (as bs : Str) :
    (a :: as).isPrefixOf (b :: bs) = false := by
  rw [cons_isPrefixOf_cons]
  have hab : (a == b) = false := by
    simp only [beq_eq_false_iff_ne, ne_eq]
    exact fun he => h he.symm
  rw [hab, Bool.false_and]

theorem isPrefixOf_append_self : ∀ (p t : Str), p.isPrefixOf (p ++ t) = true
  | [], t => by cases t <;> rfl
  | c :: p', t => by
    rw [List.cons_append, cons_isPrefixOf_cons]
    simp [isPrefixOf_append_self p' t]

theorem toHtmlGo_skip : ∀ (xs t : Str), toHtmlGo xs.length (xs ++ t) = toHtmlGo 0 t
  | [], _ => rfl
  | _ :: xs', t => toHtmlGo_skip xs' t

theorem fromHtmlGo_skip : ∀ (xs t : Str), fromHtmlGo xs.length (xs ++ t) = fromHtmlGo 0 t
  | [], _ => rfl
  | _ :: xs', t => fromHtmlGo_skip xs' t

theorem decodeHtml_pass : ∀ (s : Str), ('&' : Char) ∉ s → decodeHtml 0 s = s
  | [], _ => rfl
  | c :: rest, h => by
    have hc : c ≠ '&' := fun he => h (he ▸ List.mem_cons_self c rest)
    have hr := decodeHtml_pass rest (fun hm => h (List.mem_cons_of_mem c hm))
    simp only [decodeHtml]
    rw [if_neg hc, hr]

theorem proseOk_mem {s : Str} (h : proseOk s = true) {c : Char} (hc : c ∈ s) :
    c ≠ '\x7b' ∧ c ≠ '\x7d' ∧ c ≠ '<' ∧ c ≠ '&' := by
  simp only [proseOk, List.all_eq_true] at h
  have := h c hc
  simp at this
  tauto

theorem innerOk_mem {i : Str} (h : innerOk i = true) {c : Char} (hc : c ∈ i) :
    c ≠ '\x7b' ∧ c ≠ '\x7d' ∧ c ≠ '<' ∧ c ≠ '>' ∧ c ≠ '&' ∧ c ≠ '"' ∧ c ≠ '\n' := by
  simp only [innerOk, Bool.and_eq_true, List.all_eq_true] at h
  have := h.1.1.2 c hc
  simp at this
  tauto

theorem innerOk_ne {i : Str} (h : innerOk i = true) : i ≠ [] := by
  intro he
  rw [he] at h
  simp [innerOk] at h

theorem innerOk_head {i : Str} (h : innerOk i = true) :
    i.head?.elim false isRegexWs = false := by
  simp only [innerOk, Bool.and_eq_true, Bool.not_eq_true'] at h
  exact h.1.2

theorem innerOk_last {i : Str} (h : innerOk i = true) :
    i.getLast?.elim false isRegexWs = false := by
  simp only [innerOk, Bool.and_eq_true, Bool.not_eq_true'] at h
  exact h.2

theorem toHtmlGo_prose : ∀ (s t : Str), ('\x7b' : Char) ∉ s →
    toHtmlGo 0 (s ++ t) = s ++ toHtmlGo 0 t
  | [], _, _ => rfl
  | c :: s', t, h => by
    have hc : c ≠ '\x7b' := fun he => h (he ▸ List.mem_cons_self c s')
    have hr := toHtmlGo_prose s' t (fun hm => h (List.mem_cons_of_mem c hm))
    rw [List.cons_append]
    simp only [toHtmlGo]
    rw [if_neg hc, hr]
    rfl

theorem drop_leadingWsLen : ∀ (s : Str), s.drop (leadingWsLen s) = s.dropWhile isRegexWs
  | [] => rfl
  | c :: rest => by
    by_cases h : isRegexWs c = true
    · rw [show leadingWsLen (c :: rest) = leadingWsLen rest + 1 from by
        simp [leadingWsLen, List.takeWhile_cons, h]]
      rw [List.drop_succ_cons]
      simp [List.dropWhile_cons, h]
      exact drop_leadingWsLen rest
    · have h' : isRegexWs c = false := by simpa using h
      rw [show leadingWsLen (c :: rest) = 0 from by
        simp [leadingWsLen, List.takeWhile_cons, h']]
      simp [List.dropWhile_cons, h']

theorem matchCloseBraceLen_none_of (s : Str)
    (h : ¬ (s.dropWhile isRegexWs).head? = some '\x7d') :
    matchCloseBraceLen s = none := by
  show (if (s.drop (leadingWsLen s)).head? = some '\x7d'
      then some (leadingWsLen s + 1) else none) = none
  rw [drop_leadingWsLen]
  exact if_neg h

theorem matchCloseBraceLen_ws_close (t : Str) :
    matchCloseBraceLen (' ' :: '\x7d' :: t) = some 2 := by
  show (if ((' ' :: '\x7d' :: t).drop (leadingWsLen (' ' :: '\x7d' :: t))).head? =
        some '\x7d'
      then some (leadingWsLen (' ' :: '\x7d' :: t) + 1) else none) = some 2
  rw [show leadingWsLen (' ' :: '\x7d' :: t) = 1 from by
    simp [leadingWsLen, List.takeWhile_cons, show isRegexWs ' ' = true from rfl,
      show isRegexWs '\x7d' = false from rfl]]
  rfl

theorem dropWhile_inner_head : ∀ (b t : Str), b ≠ [] →
    (∀ c ∈ b, c ≠ '\x7d') → b.getLast?.elim false isRegexWs = false →
    ¬ (((b ++ ' ' :: '\x7d' :: t).dropWhile isRegexWs).head? = some '\x7d') := by
  intro b
  induction b with
  | nil => intro t h; exact absurd rfl h
  | cons c b' ih =>
    intro t _ hmem hlast
    rw [List.cons_append]
    cases b' with
    | nil =>
      have hc : isRegexWs c = false := by simpa using hlast
      have hne : c ≠ '\x7d' := hmem c (List.mem_cons_self c _)
      simp [List.dropWhile_cons, hc, hne]
    | cons d b'' =>
      by_cases hc : isRegexWs c = true
      · rw [List.getLast?_cons_cons] at hlast
        have hmem' : ∀ x ∈ d :: b'', x ≠ '\x7d' :=
          fun x hx => hmem x (List.mem_cons_of_mem c hx)
        have := ih t (by simp) hmem' hlast
        simpa [List.dropWhile_cons, hc] using this
      · have hc' : isRegexWs c = false := by simpa using hc
        have hne : c ≠ '\x7d' := hmem c (List.mem_cons_self c _)
        simp [List.dropWhile_cons, hc', hne]

theorem lazyInner_full : ∀ (i t : Str), i ≠ [] →
    (∀ c ∈ i, c ≠ '\x7d' ∧ c ≠ '\n') →
    i.getLast?.elim false isRegexWs = false →
    lazyInner (i ++ ' ' :: '\x7d' :: t) = some (i, i.length + 2) := by
  intro i
  induction i with
  | nil => intro t h; exact absurd rfl h
  | cons c i' ih =>
    intro t _ hmem hlast
    have hcn : c ≠ '\n' := (hmem c (List.mem_cons_self c i')).2
    rw [List.cons_append]
    simp only [lazyInner]
    rw [if_neg hcn]
    cases i' with
    | nil =>
      simp only [List.nil_append]
      rw [matchCloseBraceLen_ws_close]
      rfl
    | cons d i'' =>
      rw [List.getLast?_cons_cons] at hlast
      have hmem' : ∀ x ∈ d :: i'', x ≠ '\x7d' ∧ x ≠ '\n' :=
        fun x hx => hmem x (List.mem_cons_of_mem c hx)
      have hnone : matchCloseBraceLen ((d :: i'') ++ ' ' :: '\x7d' :: t) = none :=
        matchCloseBraceLen_none_of _
          (dropWhile_inner_head (d :: i'') t (by simp)
            (fun x hx => (hmem' x hx).1) hlast)
      rw [hnone, ih t (by simp) hmem' hlast]
      rfl

theorem tryAfterBrace_full (i t : Str) (hne : i ≠ [])
    (hmem : ∀ c ∈ i, c ≠ '\x7d' ∧ c ≠ '\n')
    (hhead : i.head?.elim false isRegexWs = false)
    (hlast : i.getLast?.elim false isRegexWs = false) :
    tryAfterBrace (' ' :: i ++ ' ' :: '\x7d' :: t) = some (i, i.length + 3) := by
  have h0 : leadingWsLen (i ++ ' ' :: '\x7d' :: t) = 0 := by
    cases i with
    | nil => exact absurd rfl hne
    | cons c i' =>
      have hcw : isRegexWs c = false := by simpa using hhead
      simp [leadingWsLen, List.takeWhile_cons, hcw]
  have h1 : leadingWsLen (' ' :: i ++ ' ' :: '\x7d' :: t) = 1 := by
    rw [List.cons_append, show leadingWsLen (' ' :: (i ++ ' ' :: '\x7d' :: t)) =
        leadingWsLen (i ++ ' ' :: '\x7d' :: t) + 1 from by
      simp [leadingWsLen, List.takeWhile_cons, show isRegexWs ' ' = true from rfl], h0]
  unfold tryAfterBrace
  rw [h1]
  simp only [tryAfterBraceGo]
  rw [show ((' ' :: i ++ ' ' :: '\x7d' :: t).drop 1) = i ++ ' ' :: '\x7d' :: t from rfl]
  rw [lazyInner_full i t hne hmem hlast]
  show some (i, 0 + 1 + (i.length + 2)) = some (i, i.length + 3)
  simp only [Option.some.injEq, Prod.mk.injEq]
  exact ⟨by trivial, by omega⟩

theorem toHtmlGo_span (i t : Str) (h : innerOk i = true) :
    toHtmlGo 0 (renderChunk (.span i) ++ t) = anchorToken i ++ toHtmlGo 0 t := by
  have hne := innerOk_ne h
  have hmem : ∀ c ∈ i, c ≠ '\x7d' ∧ c ≠ '\n' :=
    fun c hc => ⟨(innerOk_mem h hc).2.1, (innerOk_mem h hc).2.2.2.2.2.2⟩
  have hform : renderChunk (Chunk.span i) ++ t =
      '\x7b' :: (' ' :: i ++ ' ' :: '\x7d' :: t) := by
    show ('\x7b' :: ' ' :: (i ++ [' ', '\x7d'])) ++ t = _
    simp [List.append_assoc]
  rw [hform]
  simp only [toHtmlGo]
  rw [if_true]
  rw [tryAfterBrace_full i t hne hmem (innerOk_head h) (innerOk_last h)]
  show anchorToken i ++ toHtmlGo (i.length + 3) (' ' :: i ++ ' ' :: '\x7d' :: t) = _
  have hskip : toHtmlGo (i.length + 3) (' ' :: i ++ ' ' :: '\x7d' :: t) =
      toHtmlGo 0 t := by
    have hlen : (' ' :: i ++ [' ', '\x7d']).length = i.length + 3 := by
      simp
    have hs := toHtmlGo_skip (' ' :: i ++ [' ', '\x7d']) t
    rw [hlen] at hs
    rw [← hs]
    congr 1
    simp
  rw [hskip]

theorem fromHtmlGo_prose : ∀ (s t : Str), ('<' : Char) ∉ s →
    fromHtmlGo 0 (s ++ t) = s ++ fromHtmlGo 0 t
  | [], _, _ => rfl
  | c :: s', t, h => by
    have hc : c ≠ '<' := fun he => h (he ▸ List.mem_cons_self c s')
    have hr := fromHtmlGo_prose s' t (fun hm => h (List.mem_cons_of_mem c hm))
    have hpre : "<a id=\"".data.isPrefixOf (c :: (s' ++ t)) = false :=
      isPrefixOf_cons_ne hc "a id=\"".data (s' ++ t)
    rw [List.cons_append]
    simp only [fromHtmlGo]
    rw [if_neg (by rw [hpre]; exact Bool.false_ne_true), hr]
    rfl

theorem lazyUntilCloseA_full : ∀ (i t : Str), i ≠ [] →
    (∀ c ∈ i, c ≠ '<' ∧ c ≠ '\n') →
    lazyUntilCloseA (i ++ "</a>".data ++ t) = some (i.length + 4) := by
  intro i
  induction i with
  | nil => intro t h; exact absurd rfl h
  | cons c i' ih =>
    intro t _ hmem
    have hcn : c ≠ '\n' := (hmem c (List.mem_cons_self c i')).2
    rw [List.cons_append, List.cons_append]
    simp only [lazyUntilCloseA]
    rw [if_neg hcn]
    cases i' with
    | nil =>
      rw [show (([] : Str) ++ "</a>".data) ++ t = "</a>".data ++ t from by simp]
      rw [if_pos (isPrefixOf_append_self "</a>".data t)]
      rfl
    | cons d i'' =>
      have hmem' : ∀ x ∈ d :: i'', x ≠ '<' ∧ x ≠ '\n' :=
        fun x hx => hmem x (List.mem_cons_of_mem c hx)
      have hdne : d ≠ '<' := (hmem' d (List.mem_cons_self d i'')).1
      have hpre : "</a>".data.isPrefixOf (((d :: i'') ++ "</a>".data) ++ t) = false :=
        isPrefixOf_cons_ne hdne "/a>".data ((i'' ++ "</a>".data) ++ t)
      rw [if_neg (by rw [hpre]; exact Bool.false_ne_true)]
      rw [ih t (by simp) hmem']
      show some ((d :: i'').length + 4 + 1) = some ((c :: d :: i'').length + 4)
      simp only [Option.some.injEq, List.length_cons]

theorem matchAnchor_full : ∀ (i w : Str) (m : Nat), i ≠ [] →
    (∀ c ∈ i, c ≠ '"' ∧ c ≠ '\n') →
    lazyUntilCloseA w = some m →
    matchAnchor (i ++ '"' :: '>' :: w) = some (i, i.length + 2 + m) := by
  intro i
  induction i with
  | nil => intro w m h; exact absurd rfl h
  | cons c i' ih =>
    intro w m _ hmem hw
    have hcn : c ≠ '\n' := (hmem c (List.mem_cons_self c i')).2
    rw [List.cons_append]
    simp only [matchAnchor]
    rw [if_neg hcn]
    cases i' with
    | nil =>
      rw [show ([] : Str) ++ '"' :: '>' :: w = "\">".data ++ w from by simp]
      rw [if_pos (isPrefixOf_append_self "\">".data w)]
      rw [show (("\">".data ++ w).drop 2) = w from rfl, hw]
      rfl
    | cons d i'' =>
      have hmem' : ∀ x ∈ d :: i'', x ≠ '"' ∧ x ≠ '\n' :=
        fun x hx => hmem x (List.mem_cons_of_mem c hx)
      have hdne : d ≠ '"' := (hmem' d (List.mem_cons_self d i'')).1
      have hpre : "\">".data.isPrefixOf ((d :: i'') ++ '"' :: '>' :: w) = false :=
        isPrefixOf_cons_ne hdne ">".data (i'' ++ '"' :: '>' :: w)
      rw [if_neg (by rw [hpre]; exact Bool.false_ne_true)]
      rw [ih w m (by simp) hmem' hw]
      show some (c :: d :: i'', (d :: i'').length + 2 + m + 1) =
        some (c :: d :: i'', (c :: d :: i'').length + 2 + m)
      simp only [Option.some.injEq, Prod.mk.injEq, List.length_cons]
      exact ⟨by trivial, by omega⟩

theorem fromHtmlGo_anchor (i t : Str) (h : innerOk i = true) :
    fromHtmlGo 0 (anchorToken i ++ t) = renderChunk (.span i) ++ fromHtmlGo 0 t := by
  have hne := innerOk_ne h
  have hmemA : ∀ c ∈ i, c ≠ '"' ∧ c ≠ '\n' :=
    fun c hc => ⟨(innerOk_mem h hc).2.2.2.2.2.1, (innerOk_mem h hc).2.2.2.2.2.2⟩
  have hmemL : ∀ c ∈ i, c ≠ '<' ∧ c ≠ '\n' :=
    fun c hc => ⟨(innerOk_mem h hc).2.2.1, (innerOk_mem h hc).2.2.2.2.2.2⟩
  have hlz : lazyUntilCloseA (i ++ ("</a>".data ++ t)) = some (i.length + 4) := by
    have hfull := lazyUntilCloseA_full i t hne hmemL
    rw [List.append_assoc] at hfull
    exact hfull
  have hform : anchorToken i ++ t =
      "<a id=\"".data ++ (i ++ ("\">".data ++ (i ++ ("</a>".data ++ t)))) := by
    simp [anchorToken, List.append_assoc]
  rw [hform]
  show fromHtmlGo 0
      ('<' :: ("a id=\"".data ++ (i ++ '"' :: '>' :: (i ++ ("</a>".data ++ t))))) =
    renderChunk (Chunk.span i) ++ fromHtmlGo 0 t
  simp only [fromHtmlGo]
  rw [if_pos (show ("<a id=\"".data.isPrefixOf
      ('<' :: ("a id=\"".data ++ (i ++ '"' :: '>' :: (i ++ ("</a>".data ++ t)))))) = true
    from isPrefixOf_append_self "<a id=\"".data _)]
  rw [show (("a id=\"".data ++
      (i ++ '"' :: '>' :: (i ++ ("</a>".data ++ t)))).drop 6) =
    i ++ '"' :: '>' :: (i ++ ("</a>".data ++ t)) from rfl]
  rw [matchAnchor_full i (i ++ ("</a>".data ++ t)) (i.length + 4) hne hmemA hlz]
  show braceToken i ++ fromHtmlGo (6 + (i.length + 2 + (i.length + 4)))
      ("a id=\"".data ++ (i ++ '"' :: '>' :: (i ++ ("</a>".data ++ t)))) =
    renderChunk (Chunk.span i) ++ fromHtmlGo 0 t
  have hskip : fromHtmlGo (6 + (i.length + 2 + (i.length + 4)))
      ("a id=\"".data ++ (i ++ '"' :: '>' :: (i ++ ("</a>".data ++ t)))) =
      fromHtmlGo 0 t := by
    have hlen : ("a id=\"".data ++ (i ++ '"' :: '>' :: (i ++ "</a>".data))).length =
        6 + (i.length + 2 + (i.length + 4)) := by
      simp [show ("a id=\"".data.length = 6) from rfl,
        show ("</a>".data.length = 4) from rfl]
      omega
    have hs := fromHtmlGo_skip
      ("a id=\"".data ++ (i ++ '"' :: '>' :: (i ++ "</a>".data))) t
    rw [hlen] at hs
    rw [← hs]
    congr 1
    simp
  rw [hskip]
  rfl

theorem toHtmlGo_renderText : ∀ (cs : List Chunk), cs.all chunkOk = true →
    toHtmlGo 0 (renderText cs) = (cs.map protectChunk).flatten := by
  intro cs
  induction cs with
  | nil => intro _; rfl
  | cons c cs' ih =>
    intro h
    simp only [List.all_cons, Bool.and_eq_true] at h
    rw [show renderText (c :: cs') = renderChunk c ++ renderText cs' from by
      simp [renderText]]
    rw [List.map_cons, List.flatten_cons]
    cases c with
    | prose s =>
      have hbr : ('\x7b' : Char) ∉ s := fun hm => (proseOk_mem h.1 hm).1 rfl
      rw [show renderChunk (Chunk.prose s) = s from rfl, toHtmlGo_prose s _ hbr,
        ih h.2]
      rfl
    | span i =>
      rw [toHtmlGo_span i _ h.1, ih h.2]
      rfl

theorem fromHtmlGo_renderText : ∀ (cs : List Chunk), cs.all chunkOk = true →
    fromHtmlGo 0 ((cs.map protectChunk).flatten) = renderText cs := by
  intro cs
  induction cs with
  | nil => intro _; rfl
  | cons c cs' ih =>
    intro h
    simp only [List.all_cons, Bool.and_eq_true] at h
    rw [List.map_cons, List.flatten_cons]
    rw [show renderText (c :: cs') = renderChunk c ++ renderText cs' from by
      simp [renderText]]
    cases c with
    | prose s =>
      have hlt : ('<' : Char) ∉ s := fun hm => (proseOk_mem h.1 hm).2.2.1 rfl
      rw [show protectChunk (Chunk.prose s) = s from rfl, fromHtmlGo_prose s _ hlt,
        ih h.2]
      rfl
    | span i =>
      rw [show protectChunk (Chunk.span i) = anchorToken i from rfl,
        fromHtmlGo_anchor i _ h.1, ih h.2]

theorem amp_not_mem_renderText : ∀ (cs : List Chunk), cs.all chunkOk = true →
    ('&' : Char) ∉ renderText cs := by
  intro cs
  induction cs with
  | nil => intro _ hm; simp [renderText] at hm
  | cons c cs' ih =>
    intro h hm
    simp only [List.all_cons, Bool.and_eq_true] at h
    rw [show renderText (c :: cs') = renderChunk c ++ renderText cs' from by
      simp [renderText]] at hm
    rcases List.mem_append.mp hm with hm1 | hm2
    · cases c with
      | prose s => exact (proseOk_mem h.1 hm1).2.2.2 rfl
      | span i =>
        have e1 : ('&' : Char) ≠ '\x7b' := by decide
        have e2 : ('&' : Char) ≠ ' ' := by decide
        have e3 : ('&' : Char) ≠ '\x7d' := by decide
        simp only [renderChunk, List.mem_cons, List.mem_append, List.not_mem_nil,
          e1, e2, e3, or_false, false_or] at hm1
        exact (innerOk_mem h.1 hm1).2.2.2.2.1 rfl
    · exact ih h.2 hm2

/-- C3: for every text built from prose free of braces, `<` and `&`
interleaved with well-formed placeable spans (adjacent spans allowed), the
guard restores the protected text exactly; and on `Score: \x7b $points \x7d`
the protection yields the anchor token with `$points` as both id and label,
which restores to the original text. -/
theorem c3_placeholder_roundtrip :
    (∀ cs : List Chunk, cs.all chunkOk = true →
        convertFromHtml (convertToHtml (renderText cs)) = renderText cs) ∧
      convertToHtml "Score: \x7b $points \x7d".data =
        "Score: ".data ++ anchorToken "$points".data ∧
      convertFromHtml ("Score: ".data ++ anchorToken "$points".data) =
        "Score: \x7b $points \x7d".data := by
  refine ⟨?_, by decide, by decide⟩
  intro cs hok
  show decodeHtml 0 (fromHtmlGo 0 (toHtmlGo 0 (renderText cs))) = renderText cs
  rw [toHtmlGo_renderText cs hok, fromHtmlGo_renderText cs hok,
    decodeHtml_pass _ (amp_not_mem_renderText cs hok)]

/-- Witness for C3: the round trip evaluated on the scenario's chunk list
`Score: ` followed by the span `$points`. -/
theorem c3_placeholder_roundtrip_witness :
    ([Chunk.prose "Score: ".data, Chunk.span "$points".data].all chunkOk = true) ∧
      convertFromHtml (convertToHtml
          (renderText [Chunk.prose "Score: ".data, Chunk.span "$points".data])) =
        renderText [Chunk.prose "Score: ".data, Chunk.span "$points".data] :=
  ⟨by decide, c3_placeholder_roundtrip.1 _ (by decide)⟩

/-! ## C9: a transport failure aborts the translation step. -/

theorem foldlM_translate_error (oracle : TranslateOracle) :
    ∀ (l : List (List KeyedString)) (acc : List (Str × Str)),
      (∃ q ∈ l, ∃ e, oracle q = Except.error e) →
      ∃ e, l.foldlM
          (fun translated q => do
            let ts ← oracle q
            pure (translated ++ (ts.zip q).map fun p => (p.2.key, p.1)))
          acc = Except.error e := by
  intro l
  induction l with
  | nil =>
    intro acc h
    obtain ⟨q, hq, _⟩ := h
    exact absurd hq (List.not_mem_nil q)
  | cons q' rest ih =>
    intro acc h
    rw [List.foldlM_cons]
    cases ho : oracle q' with
    | error e =>
      exact ⟨e, rfl⟩
    | ok ts =>
      obtain ⟨q, hq, e, he⟩ := h
      rcases List.mem_cons.mp hq with heq | hq'
      · rw [heq, ho] at he
        exact absurd he (by simp)
      · obtain ⟨e2, he2⟩ :=
          ih (acc ++ (ts.zip q').map fun p => (p.2.key, p.1)) ⟨q, hq', e, he⟩
        exact ⟨e2, he2⟩

theorem translateModel_error (oracle : TranslateOracle) (segments : List KeyedString)
    (h : ∃ q ∈ chunks128 segments, ∃ e, oracle q = Except.error e) :
    ∃ e, translateModel oracle segments = Except.error e := by
  unfold translateModel
  exact foldlM_translate_error oracle (chunks128 segments) [] h

theorem processCategory_transportErr (oracle : TranslateOracle) (tl : Str)
    (v : Category) (base : TranslationUnitMap)
    (hb : v.baseStringsOpt = some base)
    (hq : ∃ q ∈ chunks128 (segmentsOfMap base), ∃ e, oracle q = Except.error e) :
    ∃ e, processCategory oracle tl v = TranslateOutcome.transportErr e := by
  obtain ⟨e, he⟩ := translateModel_error oracle (segmentsOfMap base) hq
  refine ⟨e, ?_⟩
  have hv : processCategory oracle tl v =
      match translateModel oracle (segmentsOfMap base) with
      | .error e => TranslateOutcome.transportErr e
      | .ok translated =>
        match translated.foldlM rebuildStep ⟨tl, []⟩ with
        | none => TranslateOutcome.panicked
        | some out =>
          TranslateOutcome.ok
            { v with translation_units := insertKeyed out.locale out v.translation_units } := by
    unfold processCategory
    rw [hb]
  rw [hv, he]

theorem processCategories_transportErr (oracle : TranslateOracle) (tl : Str) :
    ∀ (cats : KeyedList Category),
      (∃ kv ∈ cats, ∃ e,
        processCategory oracle tl kv.2 = TranslateOutcome.transportErr e) →
      (∀ kv ∈ cats, processCategory oracle tl kv.2 ≠ TranslateOutcome.panicked) →
      ∃ e, processCategories oracle tl cats = TranslateOutcome.transportErr e := by
  intro cats
  induction cats with
  | nil =>
    intro h _
    obtain ⟨kv, hkv, _⟩ := h
    exact absurd hkv (List.not_mem_nil kv)
  | cons kv0 rest ih =>
    intro h hnp
    obtain ⟨k, v⟩ := kv0
    cases hpc : processCategory oracle tl v with
    | transportErr e =>
      refine ⟨e, ?_⟩
      simp only [processCategories]
      rw [hpc]
    | panicked => exact absurd hpc (hnp (k, v) (List.mem_cons_self _ _))
    | ok v' =>
      have hrest : ∃ kv ∈ rest, ∃ e,
          processCategory oracle tl kv.2 = TranslateOutcome.transportErr e := by
        obtain ⟨kv, hkv, e, he⟩ := h
        rcases List.mem_cons.mp hkv with heq | hm
        · exfalso
          rw [heq] at he
          have hv' : processCategory oracle tl v = TranslateOutcome.transportErr e := he
          rw [hpc] at hv'
          exact absurd hv' (by simp)
        · exact ⟨kv, hm, e, he⟩
      obtain ⟨e2, he2⟩ := ih hrest (fun kv hm => hnp kv (List.mem_cons_of_mem _ hm))
      refine ⟨e2, ?_⟩
      simp only [processCategories]
      rw [hpc, he2]

/-- C9: if the external translation call fails on some chunk of some
category whose base strings exist, and no category panics, `process`
returns the transport error and never a project — so no partial
target-locale map reaches the caller and the input project, passed by
shared reference in the source, is untouched. -/
theorem c9_translate_failure_aborts (input : Project) (tl : Str)
    (oracle : TranslateOracle)
    (hfail : ∃ kv ∈ input.categories, ∃ base,
      (kv.2 : Category).baseStringsOpt = some base ∧
        ∃ q ∈ chunks128 (segmentsOfMap base), ∃ e, oracle q = Except.error e)
    (hnp : ∀ kv ∈ input.categories,
      processCategory oracle tl kv.2 ≠ TranslateOutcome.panicked) :
    (∃ e, process input tl oracle = TranslateOutcome.transportErr e) ∧
      ∀ p, process input tl oracle ≠ TranslateOutcome.ok p := by
  have hfail' : ∃ kv ∈ input.categories, ∃ e,
      processCategory oracle tl kv.2 = TranslateOutcome.transportErr e := by
    obtain ⟨kv, hm, base, hb, hq⟩ := hfail
    exact ⟨kv, hm, processCategory_transportErr oracle tl kv.2 base hb hq⟩
  obtain ⟨e, he⟩ := processCategories_transportErr oracle tl input.categories hfail' hnp
  constructor
  · refine ⟨e, ?_⟩
    unfold process
    rw [he]
  · intro p hp
    unfold process at hp
    rw [he] at hp
    simp at hp

/-- Witness for C9: a one-category project whose only oracle call fails
with transport error 7. -/
theorem c9_translate_failure_aborts_witness :
    (∃ e, process
        ⟨['p'], none, [(['c'],
          ⟨['c'], ['C'], ['e', 'n'], [],
            [(['e', 'n'], ⟨['e', 'n'], [(['k'], ⟨['k'], ['h', 'i'], []⟩)]⟩)]⟩)]⟩
        ['s', 'v'] (fun _ => Except.error 7) = TranslateOutcome.transportErr e) ∧
      ∀ p, process
        ⟨['p'], none, [(['c'],
          ⟨['c'], ['C'], ['e', 'n'], [],
            [(['e', 'n'], ⟨['e', 'n'], [(['k'], ⟨['k'], ['h', 'i'], []⟩)]⟩)]⟩)]⟩
        ['s', 'v'] (fun _ => Except.error 7) ≠ TranslateOutcome.ok p :=
  c9_translate_failure_aborts _ _ _
    ⟨(['c'],
      ⟨['c'], ['C'], ['e', 'n'], [],
        [(['e', 'n'], ⟨['e', 'n'], [(['k'], ⟨['k'], ['h', 'i'], []⟩)]⟩)]⟩),
      by decide,
      ⟨['e', 'n'], [(['k'], ⟨['k'], ['h', 'i'], []⟩)]⟩, by decide,
      [⟨['k'], ['h', 'i']⟩], by decide, 7, rfl⟩
    (by decide)

end Stringly
